import Mathlib

/-!
# jQuery plugin template (`src/js/jquery.plugin.template.js`)

A shallow embedding of the plugin template: the option merge performed by the
`Plugin` constructor, the message buffer, and the public dispatcher
`$.fn.jQueryPlugin`.

The file under `src/` relies on jQuery (`$.extend`, `$.each`, `.each`, `.data`),
which is an external library.  Its operations are embedded from jQuery's
published source (`jQuery.extend` in `src/core.js`, `.data` in `src/data.js`).

JavaScript objects are embedded as trees that carry an *identity* (a natural
number, standing for the object reference).  Two containers are the same
JavaScript object exactly when their identities are equal, so aliasing and
"which object was assigned into" stay observable in a purely functional model.

Conventions of the embedding:

* the functions a configuration may hold (`pluginCallback`) are run by a
  parameter `host`, which says what each function object does;
* numbers are integers; an array has its index properties only (no `length`,
  no named property), and a hole reads as `undefined`;
* objects do not override `toString` / `valueOf`, and the elements of the page
  carry no `data-*` attribute for the plugin's data key.
-/

namespace JQueryPlugin

/-! ## JavaScript values -/

/-- JavaScript values.  `obj` is a plain object (`jQuery.isPlainObject`), `arr`
an array, `func` a function object and `other` any non-plain, non-array object
(class instance, `Date`, DOM node ...).  `func` and `other` are opaque: they are
only ever passed around by reference.  Numbers are opaque scalars (integers). -/
inductive JSVal where
  | undefined
  | null
  | bool (b : Bool)
  | num (n : Int)
  | str (s : String)
  | func (id : Nat)
  | other (id : Nat)
  | obj (id : Nat) (props : List (String × JSVal))
  | arr (id : Nat) (elems : List JSVal)

namespace JSVal

mutual
/-- Decision of the equality of two values (identities included). -/
def decEq : (a b : JSVal) → Decidable (a = b)
  | .undefined, .undefined => isTrue rfl
  | .null, .null => isTrue rfl
  | .bool b1, .bool b2 =>
    if h : b1 = b2 then isTrue (congrArg JSVal.bool h)
    else isFalse (fun e => h (JSVal.bool.inj e))
  | .num n1, .num n2 =>
    if h : n1 = n2 then isTrue (congrArg JSVal.num h)
    else isFalse (fun e => h (JSVal.num.inj e))
  | .str s1, .str s2 =>
    if h : s1 = s2 then isTrue (congrArg JSVal.str h)
    else isFalse (fun e => h (JSVal.str.inj e))
  | .func i1, .func i2 =>
    if h : i1 = i2 then isTrue (congrArg JSVal.func h)
    else isFalse (fun e => h (JSVal.func.inj e))
  | .other i1, .other i2 =>
    if h : i1 = i2 then isTrue (congrArg JSVal.other h)
    else isFalse (fun e => h (JSVal.other.inj e))
  | .obj i1 p1, .obj i2 p2 =>
    if h : i1 = i2 then
      match decEqProps p1 p2 with
      | isTrue h2 => isTrue (congrArg₂ JSVal.obj h h2)
      | isFalse h2 => isFalse (fun e => h2 (JSVal.obj.inj e).2)
    else isFalse (fun e => h (JSVal.obj.inj e).1)
  | .arr i1 e1, .arr i2 e2 =>
    if h : i1 = i2 then
      match decEqElems e1 e2 with
      | isTrue h2 => isTrue (congrArg₂ JSVal.arr h h2)
      | isFalse h2 => isFalse (fun e => h2 (JSVal.arr.inj e).2)
    else isFalse (fun e => h (JSVal.arr.inj e).1)
  | .undefined, .null => isFalse (fun e => JSVal.noConfusion e)
  | .undefined, .bool _ => isFalse (fun e => JSVal.noConfusion e)
  | .undefined, .num _ => isFalse (fun e => JSVal.noConfusion e)
  | .undefined, .str _ => isFalse (fun e => JSVal.noConfusion e)
  | .undefined, .func _ => isFalse (fun e => JSVal.noConfusion e)
  | .undefined, .other _ => isFalse (fun e => JSVal.noConfusion e)
  | .undefined, .obj _ _ => isFalse (fun e => JSVal.noConfusion e)
  | .undefined, .arr _ _ => isFalse (fun e => JSVal.noConfusion e)
  | .null, .undefined => isFalse (fun e => JSVal.noConfusion e)
  | .null, .bool _ => isFalse (fun e => JSVal.noConfusion e)
  | .null, .num _ => isFalse (fun e => JSVal.noConfusion e)
  | .null, .str _ => isFalse (fun e => JSVal.noConfusion e)
  | .null, .func _ => isFalse (fun e => JSVal.noConfusion e)
  | .null, .other _ => isFalse (fun e => JSVal.noConfusion e)
  | .null, .obj _ _ => isFalse (fun e => JSVal.noConfusion e)
  | .null, .arr _ _ => isFalse (fun e => JSVal.noConfusion e)
  | .bool _, .undefined => isFalse (fun e => JSVal.noConfusion e)
  | .bool _, .null => isFalse (fun e => JSVal.noConfusion e)
  | .bool _, .num _ => isFalse (fun e => JSVal.noConfusion e)
  | .bool _, .str _ => isFalse (fun e => JSVal.noConfusion e)
  | .bool _, .func _ => isFalse (fun e => JSVal.noConfusion e)
  | .bool _, .other _ => isFalse (fun e => JSVal.noConfusion e)
  | .bool _, .obj _ _ => isFalse (fun e => JSVal.noConfusion e)
  | .bool _, .arr _ _ => isFalse (fun e => JSVal.noConfusion e)
  | .num _, .undefined => isFalse (fun e => JSVal.noConfusion e)
  | .num _, .null => isFalse (fun e => JSVal.noConfusion e)
  | .num _, .bool _ => isFalse (fun e => JSVal.noConfusion e)
  | .num _, .str _ => isFalse (fun e => JSVal.noConfusion e)
  | .num _, .func _ => isFalse (fun e => JSVal.noConfusion e)
  | .num _, .other _ => isFalse (fun e => JSVal.noConfusion e)
  | .num _, .obj _ _ => isFalse (fun e => JSVal.noConfusion e)
  | .num _, .arr _ _ => isFalse (fun e => JSVal.noConfusion e)
  | .str _, .undefined => isFalse (fun e => JSVal.noConfusion e)
  | .str _, .null => isFalse (fun e => JSVal.noConfusion e)
  | .str _, .bool _ => isFalse (fun e => JSVal.noConfusion e)
  | .str _, .num _ => isFalse (fun e => JSVal.noConfusion e)
  | .str _, .func _ => isFalse (fun e => JSVal.noConfusion e)
  | .str _, .other _ => isFalse (fun e => JSVal.noConfusion e)
  | .str _, .obj _ _ => isFalse (fun e => JSVal.noConfusion e)
  | .str _, .arr _ _ => isFalse (fun e => JSVal.noConfusion e)
  | .func _, .undefined => isFalse (fun e => JSVal.noConfusion e)
  | .func _, .null => isFalse (fun e => JSVal.noConfusion e)
  | .func _, .bool _ => isFalse (fun e => JSVal.noConfusion e)
  | .func _, .num _ => isFalse (fun e => JSVal.noConfusion e)
  | .func _, .str _ => isFalse (fun e => JSVal.noConfusion e)
  | .func _, .other _ => isFalse (fun e => JSVal.noConfusion e)
  | .func _, .obj _ _ => isFalse (fun e => JSVal.noConfusion e)
  | .func _, .arr _ _ => isFalse (fun e => JSVal.noConfusion e)
  | .other _, .undefined => isFalse (fun e => JSVal.noConfusion e)
  | .other _, .null => isFalse (fun e => JSVal.noConfusion e)
  | .other _, .bool _ => isFalse (fun e => JSVal.noConfusion e)
  | .other _, .num _ => isFalse (fun e => JSVal.noConfusion e)
  | .other _, .str _ => isFalse (fun e => JSVal.noConfusion e)
  | .other _, .func _ => isFalse (fun e => JSVal.noConfusion e)
  | .other _, .obj _ _ => isFalse (fun e => JSVal.noConfusion e)
  | .other _, .arr _ _ => isFalse (fun e => JSVal.noConfusion e)
  | .obj _ _, .undefined => isFalse (fun e => JSVal.noConfusion e)
  | .obj _ _, .null => isFalse (fun e => JSVal.noConfusion e)
  | .obj _ _, .bool _ => isFalse (fun e => JSVal.noConfusion e)
  | .obj _ _, .num _ => isFalse (fun e => JSVal.noConfusion e)
  | .obj _ _, .str _ => isFalse (fun e => JSVal.noConfusion e)
  | .obj _ _, .func _ => isFalse (fun e => JSVal.noConfusion e)
  | .obj _ _, .other _ => isFalse (fun e => JSVal.noConfusion e)
  | .obj _ _, .arr _ _ => isFalse (fun e => JSVal.noConfusion e)
  | .arr _ _, .undefined => isFalse (fun e => JSVal.noConfusion e)
  | .arr _ _, .null => isFalse (fun e => JSVal.noConfusion e)
  | .arr _ _, .bool _ => isFalse (fun e => JSVal.noConfusion e)
  | .arr _ _, .num _ => isFalse (fun e => JSVal.noConfusion e)
  | .arr _ _, .str _ => isFalse (fun e => JSVal.noConfusion e)
  | .arr _ _, .func _ => isFalse (fun e => JSVal.noConfusion e)
  | .arr _ _, .other _ => isFalse (fun e => JSVal.noConfusion e)
  | .arr _ _, .obj _ _ => isFalse (fun e => JSVal.noConfusion e)
/-- Decision of the equality of two property lists. -/
def decEqProps : (a b : List (String × JSVal)) → Decidable (a = b)
  | [], [] => isTrue rfl
  | [], _ :: _ => isFalse (fun e => List.noConfusion e)
  | _ :: _, [] => isFalse (fun e => List.noConfusion e)
  | (k1, v1) :: r1, (k2, v2) :: r2 =>
    if h : k1 = k2 then
      match decEq v1 v2, decEqProps r1 r2 with
      | isTrue h2, isTrue h3 => isTrue (by rw [h, h2, h3])
      | isFalse h2, _ => isFalse (fun e => h2 (Prod.mk.inj (List.cons.inj e).1).2)
      | _, isFalse h3 => isFalse (fun e => h3 (List.cons.inj e).2)
    else isFalse (fun e => h (Prod.mk.inj (List.cons.inj e).1).1)
/-- Decision of the equality of two element lists. -/
def decEqElems : (a b : List JSVal) → Decidable (a = b)
  | [], [] => isTrue rfl
  | [], _ :: _ => isFalse (fun e => List.noConfusion e)
  | _ :: _, [] => isFalse (fun e => List.noConfusion e)
  | v1 :: r1, v2 :: r2 =>
    match decEq v1 v2, decEqElems r1 r2 with
    | isTrue h2, isTrue h3 => isTrue (by rw [h2, h3])
    | isFalse h2, _ => isFalse (fun e => h2 (List.cons.inj e).1)
    | _, isFalse h3 => isFalse (fun e => h3 (List.cons.inj e).2)
end

instance : DecidableEq JSVal := decEq

/-- The `typeof` operator. -/
def typeOf : JSVal → String
  | .undefined => "undefined"
  | .null => "object"
  | .bool _ => "boolean"
  | .num _ => "number"
  | .str _ => "string"
  | .func _ => "function"
  | .other _ => "object"
  | .obj _ _ => "object"
  | .arr _ _ => "object"

/-- The identity of an object value; primitives have none. -/
def ident? : JSVal → Option Nat
  | .func i => some i
  | .other i => some i
  | .obj i _ => some i
  | .arr i _ => some i
  | _ => none

/-- `jQuery.isPlainObject`. -/
def isPlainObject : JSVal → Bool
  | .obj _ _ => true
  | _ => false

/-- `Array.isArray`. -/
def isArray : JSVal → Bool
  | .arr _ _ => true
  | _ => false

end JSVal

open JSVal

/-- A property name as produced by `for (name in options)`: a string key of an
object, or an index of an array. -/
inductive PropName where
  | name (s : String)
  | index (i : Nat)
  deriving DecidableEq

/-- The property key a name denotes on a plain object (an index is the key made
of its decimal digits). -/
def PropName.toKey : PropName → String
  | .name s => s
  | .index i => toString i

/-- Assignment `props[k] = v` on the property list of a plain object: an existing
key keeps its place, a new key is added at the end. -/
def setProp : List (String × JSVal) → String → JSVal → List (String × JSVal)
  | [], k, v => [(k, v)]
  | (k1, v1) :: r, k, v => if k1 = k then (k, v) :: r else (k1, v1) :: setProp r k v

/-- Assignment `elems[i] = v` on an array: writing past the end leaves holes,
which read as `undefined`. -/
def setElem : List JSVal → Nat → JSVal → List JSVal
  | [], 0, v => [v]
  | [], i + 1, v => JSVal.undefined :: setElem [] i v
  | _ :: r, 0, v => v :: r
  | x :: r, i + 1, v => x :: setElem r i v

/-- Property read `o[name]`.  A missing property reads as `undefined`.  Arrays
carry index properties only; opaque objects and primitives expose none. -/
def JSVal.get : JSVal → PropName → JSVal
  | .obj _ ps, p => (ps.lookup p.toKey).getD .undefined
  | .arr _ es, .index i => es.getD i .undefined
  | _, _ => .undefined

/-- Property assignment `o[name] = v` seen as the updated object. -/
def JSVal.set : JSVal → PropName → JSVal → JSVal
  | .obj i ps, p, v => .obj i (setProp ps p.toKey v)
  | .arr i es, .index k, v => .arr i (setElem es k v)
  | t, _, _ => t

/-! ## Object allocation and assignment log -/

/-- The allocation state: `next` is the first identity not yet given to an
object; `written` logs, oldest first, the identity of every object that a
property assignment was performed on. -/
structure Mem where
  next : Nat
  written : List Nat
  deriving DecidableEq

/-- Evaluate an object literal `{}`: a new plain object with a fresh identity. -/
def Mem.newObject (m : Mem) : JSVal × Mem :=
  (.obj m.next [], { m with next := m.next + 1 })

/-- Evaluate an array literal `[]`: a new array with a fresh identity. -/
def Mem.newArray (m : Mem) : JSVal × Mem :=
  (.arr m.next [], { m with next := m.next + 1 })

/-- Record an assignment into the object `target`. -/
def Mem.assigned (m : Mem) (target : JSVal) : Mem :=
  match target.ident? with
  | some i => { m with written := m.written ++ [i] }
  | none => m

/-- The comparison `target === copy` of `jQuery.extend`, where `target` is an
object: true exactly when `copy` is that same object. -/
def sameObject (target copy : JSVal) : Bool :=
  match target.ident?, copy.ident? with
  | some i, some j => i == j
  | _, _ => false

/-! ## `jQuery.extend(true, target, ...)` -/

/-- The test `name === "__proto__" || target === copy` that makes the loop of
`jQuery.extend` skip a property (the first half is in jQuery since 3.4.0; an
array index is never `"__proto__"`). -/
def skipped (target : JSVal) (name : PropName) (copy : JSVal) : Bool :=
  decide (name = .name "__proto__") || sameObject target copy

mutual
/-- One turn of the loop `for ( name in options )` of `jQuery.extend` in deep
mode.  In jQuery's source the body of the loop is

    copy = options[ name ];
    if ( name === "__proto__" || target === copy ) { continue; }
    if ( deep && copy && ( jQuery.isPlainObject( copy ) ||
        ( copyIsArray = Array.isArray( copy ) ) ) ) {
      src = target[ name ];
      if ( copyIsArray && !Array.isArray( src ) ) { clone = []; }
      else if ( !copyIsArray && !jQuery.isPlainObject( src ) ) { clone = {}; }
      else { clone = src; }
      copyIsArray = false;
      target[ name ] = jQuery.extend( deep, clone, copy );
    } else if ( copy !== undefined ) {
      target[ name ] = copy;
    }

The recursive call `jQuery.extend( deep, clone, copy )` runs the same loop over
the properties of `copy` with `clone` as its target. -/
def extendProp (target : JSVal) (name : PropName) (copy : JSVal) (m : Mem) : JSVal × Mem :=
  if skipped target name copy then (target, m)
  else
    match copy with
    | .obj _ ps =>
      let src := target.get name
      let cm := if src.isPlainObject then (src, m) else m.newObject
      let r := extendProps cm.1 ps cm.2
      (target.set name r.1, r.2.assigned target)
    | .arr _ es =>
      let src := target.get name
      let cm := if src.isArray then (src, m) else m.newArray
      let r := extendElems cm.1 es 0 cm.2
      (target.set name r.1, r.2.assigned target)
    | .undefined => (target, m)
    | .null => (target.set name .null, m.assigned target)
    | .bool b => (target.set name (.bool b), m.assigned target)
    | .num n => (target.set name (.num n), m.assigned target)
    | .str s => (target.set name (.str s), m.assigned target)
    | .func i => (target.set name (.func i), m.assigned target)
    | .other i => (target.set name (.other i), m.assigned target)
/-- The loop `for (name in options)` over the properties of a plain object. -/
def extendProps (target : JSVal) : List (String × JSVal) → Mem → JSVal × Mem
  | [], m => (target, m)
  | (k, copy) :: rest, m =>
    let r := extendProp target (.name k) copy m
    extendProps r.1 rest r.2
/-- The loop `for (name in options)` over the elements of an array, `i` being
the index of the first element of the list. -/
def extendElems (target : JSVal) : List JSVal → Nat → Mem → JSVal × Mem
  | [], _, m => (target, m)
  | copy :: rest, i, m =>
    let r := extendProp target (.index i) copy m
    extendElems r.1 rest (i + 1) r.2
end

/-- The body of `jQuery.extend` for one source argument: `null` and `undefined`
are skipped (`options != null`), the enumerable properties of a plain object or
an array are merged into `target`; primitives and opaque objects contribute no
property. -/
def extendInto (target options : JSVal) (m : Mem) : JSVal × Mem :=
  match options with
  | .obj _ ps => extendProps target ps m
  | .arr _ es => extendElems target es 0 m
  | _ => (target, m)

/-- `jQuery.extend(true, target, source1, ..., sourceN)`: the sources are merged
into `target` from left to right; the (modified) target is returned. -/
def jQueryExtendDeep (target : JSVal) : List JSVal → Mem → JSVal × Mem
  | [], m => (target, m)
  | options :: rest, m =>
    let r := extendInto target options m
    jQueryExtendDeep r.1 rest r.2

/-- The settings of a new `Plugin` (constructor, line 76):
`$.extend(true, {}, $.fn[pluginName].defaults, options)`. -/
def mkSettings (defaults options : JSVal) (m : Mem) : JSVal × Mem :=
  let t := m.newObject
  jQueryExtendDeep t.1 [defaults, options] t.2

/-! ## Plugin state -/

/-- The name of the plugin (line 20). -/
def pluginName : String := "jQueryPlugin"

/-- The capitalised plugin name used in console messages (line 28):
`pluginName.charAt(0).toUpperCase() + pluginName.slice(1)`. -/
def displayName : String :=
  String.mk ((pluginName.data.take 1).map Char.toUpper) ++ String.mk (pluginName.data.drop 1)

/-- An entry of the message buffer: `{ type: messageType, content: content }`. -/
structure Message where
  type : String
  content : String
  deriving DecidableEq

/-- A `Plugin` instance: the wrapped element (a DOM element, given by its
identity), the merged settings and the buffered console messages. -/
structure Plugin where
  element : Nat
  settings : JSVal
  messages : List Message
  deriving DecidableEq

/-- The observable state around the plugin.

* `defaults`: the public object `$.fn.jQueryPlugin.defaults`;
* `data`: the jQuery data cache under the key `pluginName`, element by element
  (the fallback of `.data()` to an HTML attribute `data-*` is left out: elements
  are taken to carry no such attribute);
* `console`: the lines written to the console, each with the console method
  (`log`, `error`, `info`, `warn`) that wrote it;
* `instances`: every `Plugin` whose constructor has run to completion;
* `mem`: the allocation state. -/
structure World where
  defaults : JSVal
  data : List (Nat × JSVal)
  console : List (String × String)
  instances : List Plugin
  mem : Mem
  deriving DecidableEq

/-- The outcome of running a piece of JavaScript: a value, or a thrown
exception; both come with the state reached. -/
inductive Completion (α : Type) where
  | normal (value : α) (w : World)
  | throw (error : String) (w : World)
  deriving DecidableEq

/-- The state a completion ends in. -/
def Completion.world {α : Type} : Completion α → World
  | .normal _ w => w
  | .throw _ w => w

/-- The behaviour of the function objects of the page: `host f self w` runs
the function with identity `f` as a method of the object `self` without
arguments in state `w`; it yields the receiver as the call leaves it, or
throws. -/
abbrev Host := Nat → JSVal → World → Completion JSVal

/-- The shipped defaults (lines 183-185): `{ pluginParam: 'paramValue' }`,
an object with identity `i`. -/
def shippedDefaults (i : Nat) : JSVal := .obj i [("pluginParam", .str "paramValue")]

/-- A call `console[method](line)`. -/
def World.consoleCall (w : World) (method line : String) : World :=
  { w with console := w.console ++ [(method, line)] }

/-- The value cached for element `e` under `pluginName`, `undefined` if none. -/
def World.dataOf (w : World) (e : Nat) : JSVal :=
  (w.data.lookup e).getD .undefined

/-- Update of the cache entry of one element. -/
def setData : List (Nat × JSVal) → Nat → JSVal → List (Nat × JSVal)
  | [], e, v => [(e, v)]
  | (e1, v1) :: r, e, v => if e1 = e then (e, v) :: r else (e1, v1) :: setData r e v

/-- The setter `$(element).data(pluginName, value)` on a one-element selection. -/
def World.dataSet (w : World) (e : Nat) (v : JSVal) : World :=
  { w with data := setData w.data e v }

/-- The getter `selection.data(pluginName)`: the value cached for the first
element of the selection, `undefined` for an empty selection. -/
def World.jqData (w : World) : List Nat → JSVal
  | [] => .undefined
  | e :: _ => w.dataOf e

/-! ## Public methods -/

/-- The result of a dispatcher call: a JavaScript value, the selection itself
(jQuery chaining), or the value returned by a native member of
`Object.prototype` (`constructor`, `hasOwnProperty`, ...) for the given
receiver and arguments, which is not modelled further. -/
inductive Ret where
  | value (v : JSVal)
  | selection (elements : List Nat)
  | native (name : String) (receiver : List Nat) (args : List JSVal)
  deriving DecidableEq

/-- `methods.getInstance` (lines 47-49): `return $(this).data(pluginName)`. -/
def methods.getInstance (this : List Nat) (_args : List JSVal) (w : World) : Completion Ret :=
  .normal (.value (w.jqData this)) w

/-- `methods.publicMethod` (lines 60-62): the body is empty. -/
def methods.publicMethod (_this : List Nat) (_args : List JSVal) (w : World) : Completion Ret :=
  .normal (.value .undefined) w

/-- What `methods[key]` can be. -/
inductive Method where
  | getInstance
  | publicMethod
  | inherited (name : String)
  deriving DecidableEq

/-- The property names every object literal inherits from `Object.prototype`. -/
def objectPrototypeKeys : List String :=
  ["constructor", "hasOwnProperty", "isPrototypeOf", "propertyIsEnumerable",
   "toLocaleString", "toString", "valueOf", "__proto__",
   "__defineGetter__", "__defineSetter__", "__lookupGetter__", "__lookupSetter__"]

/-- The own members of the object literal `methods` (lines 36-63). -/
def methods : List (String × Method) :=
  [("getInstance", .getInstance), ("publicMethod", .publicMethod)]

/-- The property read `methods[key]`: an own member of the object literal, else
a member inherited from `Object.prototype`, else `undefined` (`none`).  Every
member found is truthy. -/
def methodsLookup (key : String) : Option Method :=
  match methods.lookup key with
  | some m => some m
  | none => if key ∈ objectPrototypeKeys then some (.inherited key) else none

mutual
/-- The string conversion applied to a value used as a property key.  Objects
are taken not to override `toString` / `valueOf`. -/
def toJSString : JSVal → String
  | .undefined => "undefined"
  | .null => "null"
  | .bool b => if b then "true" else "false"
  | .num n => toString n
  | .str s => s
  | .func _ => "function () [code]"
  | .other _ => "[object Object]"
  | .obj _ _ => "[object Object]"
  | .arr _ es => joinElems es
/-- The `Array.prototype.join` behind the string conversion of an array: the
converted elements, separated by commas. -/
def joinElems : List JSVal → String
  | [] => ""
  | v :: rest => elemString v ++ joinRest rest
/-- The elements after the first one, each preceded by a comma. -/
def joinRest : List JSVal → String
  | [] => ""
  | v :: rest => "," ++ elemString v ++ joinRest rest
/-- The string an array element contributes to `join`: `null` and `undefined`
give the empty string, any other element its string conversion. -/
def elemString : JSVal → String
  | .undefined => ""
  | .null => ""
  | .bool b => if b then "true" else "false"
  | .num n => toString n
  | .str s => s
  | .func _ => "function () [code]"
  | .other _ => "[object Object]"
  | .obj _ _ => "[object Object]"
  | .arr _ es => joinElems es
end

/-- The call `methods[config].apply(this, args)` for a member found by
`methodsLookup`. -/
def applyMethod (m : Method) (this : List Nat) (args : List JSVal) (w : World) :
    Completion Ret :=
  match m with
  | .getInstance => methods.getInstance this args w
  | .publicMethod => methods.publicMethod this args w
  | .inherited name =>
    if name = "__proto__" then .throw "TypeError: methods[config].apply is not a function" w
    else if name = "toString" ∨ name = "toLocaleString" then
      .normal (.value (.str "[object Object]")) w
    else if name = "valueOf" then .normal (.selection this) w
    else if name = "__defineGetter__" ∨ name = "__defineSetter__" then
      match args.getD 1 .undefined with
      | .func _ => .normal (.value .undefined) w
      | _ => .throw "TypeError: the accessor is not a function" w
    else .normal (.native name this args) w

/-- The dispatcher `$.fn[pluginName]` (lines 160-170) on a first argument that
is a string: `methods[config]` is called if there is such a member; otherwise,
`typeof config` being `"string"` and not `"object"`, the error line is written
and nothing is returned. -/
def dispatchString (config : String) (this : List Nat) (args : List JSVal) (w : World) :
    Completion Ret :=
  match methodsLookup config with
  | some m => applyMethod m this args w
  | none =>
    .normal (.value .undefined) (w.consoleCall "error" (displayName ++ ": invalid options."))

/-! ## The `Plugin` class -/

/-- The default message type of `_sendMessage` (line 117). -/
def defaultType : String := "log"

/-- The allowed message types of `_sendMessage` (line 118). -/
def allowedTypes : List String := [defaultType, "error", "info", "warn"]

/-- `_sendMessage(content, type)` (lines 116-129): `allowedTypes.includes(type)`
holds exactly for a string that is one of the allowed types. -/
def Plugin._sendMessage (p : Plugin) (content : String) (type : JSVal) : Plugin :=
  let messageType :=
    match type with
    | .str t => if t ∈ allowedTypes then t else defaultType
    | _ => defaultType
  { p with messages := p.messages ++ [{ type := messageType, content := content }] }

/-- The loop of `_printMessages` over a buffer: one console call per entry. -/
def printAll : List Message → World → World
  | [], w => w
  | message :: rest, w =>
    printAll rest (w.consoleCall message.type (displayName ++ ": " ++ message.content ++ "."))

/-- `_printMessages()` (lines 135-139). -/
def Plugin._printMessages (p : Plugin) (w : World) : World :=
  printAll p.messages w

/-- `_init()` (lines 91-107).  The nested call
`this.element[pluginName]('publicMethod')` enters the dispatcher with a string
on the one-element selection `this.element`. -/
def Plugin._init (host : Host) (p : Plugin) (w : World) : Completion Plugin :=
  let p1 :=
    if typeOf (p.settings.get (.name "pluginParam")) ≠ "string" then
      p._sendMessage "missing pluginParam" (.str "error")
    else p
  match dispatchString "publicMethod" [p1.element] [] w with
  | .throw e w1 => .throw e w1
  | .normal _ w1 =>
    let called :=
      match p1.settings.get (.name "pluginCallback") with
      | .func f => host f p1.settings w1
      | _ => .normal p1.settings w1
    match called with
    | .throw e w2 => .throw e w2
    | .normal settings w2 =>
      .normal { p1 with settings := settings } (w2.dataSet p1.element settings)

/-- `new Plugin(element, options)` (lines 74-83). -/
def Plugin.new (host : Host) (element : Nat) (options : JSVal) (w : World) :
    Completion Plugin :=
  let s := mkSettings w.defaults options w.mem
  let p : Plugin := { element := element, settings := s.1, messages := [] }
  match p._init host { w with mem := s.2 } with
  | .throw e w1 => .throw e w1
  | .normal p1 w1 =>
    let w2 := p1._printMessages w1
    .normal p1 { w2 with instances := w2.instances ++ [p1] }

/-! ## The dispatcher `$.fn[pluginName]` -/

/-- `this.each(function(i, target) { new Plugin(this, config); })`. -/
def eachNew (host : Host) (config : JSVal) : List Nat → World → Completion Unit
  | [], w => .normal () w
  | target :: rest, w =>
    match Plugin.new host target config w with
    | .throw e w1 => .throw e w1
    | .normal _ w1 => eachNew host config rest w1

/-- `$.fn[pluginName] = function(config) { ... }` (lines 160-170), called on the
selection `this` with the argument list `arguments`. -/
def jQueryPlugin (host : Host) (this : List Nat) (arguments : List JSVal) (w : World) :
    Completion Ret :=
  let config := arguments.headD .undefined
  match methodsLookup (toJSString config) with
  | some m => applyMethod m this (arguments.drop 1) w
  | none =>
    if typeOf config = "object" then
      match eachNew host config this w with
      | .throw e w1 => .throw e w1
      | .normal _ w1 => .normal (.selection this) w1
    else
      .normal (.value .undefined) (w.consoleCall "error" (displayName ++ ": invalid options."))

/-! ## Notions used to state the properties -/

/-- The severities the specification names.  `method` gives the console method,
which is the `type` string of the code, that each of them stands for. -/
inductive Severity where
  | plain
  | error
  | info
  | warning
  deriving DecidableEq

/-- The console method, and `type` string, of a severity. -/
def Severity.method : Severity → String
  | .plain => "log"
  | .error => "error"
  | .info => "info"
  | .warning => "warn"

/-- A sequence of `_sendMessage` calls on an instance. -/
def sendAll (p : Plugin) : List (String × JSVal) → Plugin
  | [] => p
  | c :: rest => sendAll (p._sendMessage c.1 c.2) rest

/-- A host whose functions return normally, leave their receiver as it is and
change nothing of the state but the console. -/
def WellBehaved (host : Host) : Prop :=
  ∀ f self w, ∃ out, host f self w = .normal self { w with console := w.console ++ out }

/-- The buffer `_init` leaves for given settings. -/
def initMessages (settings : JSVal) : List Message :=
  if typeOf (settings.get (.name "pluginParam")) = "string" then []
  else [{ type := "error", content := "missing pluginParam" }]

mutual
/-- The identities of the containers (plain objects and arrays) of a value: its
own, if it is a container, and those of the containers nested in it. -/
def containerIds : JSVal → List Nat
  | .obj i ps => i :: containerIdsProps ps
  | .arr i es => i :: containerIdsElems es
  | .undefined => []
  | .null => []
  | .bool _ => []
  | .num _ => []
  | .str _ => []
  | .func _ => []
  | .other _ => []
/-- The container identities below a property list. -/
def containerIdsProps : List (String × JSVal) → List Nat
  | [] => []
  | (_, v) :: rest => containerIds v ++ containerIdsProps rest
/-- The container identities below an element list. -/
def containerIdsElems : List JSVal → List Nat
  | [] => []
  | v :: rest => containerIds v ++ containerIdsElems rest
end

/-- A value is a container: a plain object or an array. -/
def JSVal.isContainer (v : JSVal) : Bool := v.isPlainObject || v.isArray

/-- A container without its content: what remains is its kind and identity. -/
def JSVal.shell : JSVal → JSVal
  | .obj i _ => .obj i []
  | .arr i _ => .arr i []
  | v => v

/-- What a run of the merge that turns the target `t` into `t1` and the
allocation state `m` into `m1` guarantees: the target keeps its kind and
identity, identities are only ever added, every container of the result is a
container of the original target or was created during the run, and every
assignment of the run went into such a container. -/
structure Grows (t : JSVal) (m : Mem) (t1 : JSVal) (m1 : Mem) : Prop where
  shell : t1.shell = t.shell
  next : m.next ≤ m1.next
  ids : ∀ i ∈ containerIds t1, i ∈ containerIds t ∨ (m.next ≤ i ∧ i < m1.next)
  written : ∃ ws, m1.written = m.written ++ ws ∧
    ∀ i ∈ ws, i ∈ containerIds t ∨ (m.next ≤ i ∧ i < m1.next)

mutual
/-- All identities occurring in a value: those of its containers and of the
opaque objects it refers to. -/
def allIds : JSVal → List Nat
  | .obj i ps => i :: allIdsProps ps
  | .arr i es => i :: allIdsElems es
  | .func i => [i]
  | .other i => [i]
  | .undefined => []
  | .null => []
  | .bool _ => []
  | .num _ => []
  | .str _ => []
/-- All identities below a property list. -/
def allIdsProps : List (String × JSVal) → List Nat
  | [] => []
  | (_, v) :: rest => allIds v ++ allIdsProps rest
/-- All identities below an element list. -/
def allIdsElems : List JSVal → List Nat
  | [] => []
  | v :: rest => allIds v ++ allIdsElems rest
end

mutual
/-- A value is well formed when each of its plain objects has pairwise distinct
property keys (as every object has), none of which is `__proto__` (an object
literal cannot create an own property of that name, and `jQuery.extend` never
copies one). -/
def wellFormed : JSVal → Bool
  | .obj _ ps =>
    decide ((ps.map Prod.fst).Nodup) && decide ("__proto__" ∉ ps.map Prod.fst) &&
      wellFormedProps ps
  | .arr _ es => wellFormedElems es
  | .undefined => true
  | .null => true
  | .bool _ => true
  | .num _ => true
  | .str _ => true
  | .func _ => true
  | .other _ => true
/-- Well-formedness of the values of a property list. -/
def wellFormedProps : List (String × JSVal) → Bool
  | [] => true
  | (_, v) :: rest => wellFormed v && wellFormedProps rest
/-- Well-formedness of the elements of an array. -/
def wellFormedElems : List JSVal → Bool
  | [] => true
  | v :: rest => wellFormed v && wellFormedElems rest
end

/-- What reading a value shows without following it: a scalar or the reference
to an opaque object is seen as it is, a plain object or an array only as such
(neither its identity nor its content). -/
def JSVal.look : JSVal → JSVal
  | .obj _ _ => .obj 0 []
  | .arr _ _ => .arr 0 []
  | v => v

/-- The chained property read `v[p1][p2]...[pn]`. -/
def getPath : JSVal → List PropName → JSVal
  | v, [] => v
  | v, p :: rest => getPath (v.get p) rest

/-- The merge rule in words, as what is read at a path of the result of merging
the override value `ov` over the default value `dv`:

* where the override is `undefined` (or absent), the default value stays;
* where the override is a plain object, each property is the merge of the
  override's property over the property of the default value, the latter
  counting only if the default value is a plain object too;
* where the override is an array, each index is the merge of the override's
  element over the element of the default value, the latter counting only if
  the default value is an array too;
* any other override value (scalar, function, non-plain object) replaces the
  default value. -/
def readMerged (dv ov : JSVal) : List PropName → JSVal
  | [] => if ov = .undefined then dv.look else ov.look
  | p :: rest =>
    match ov with
    | .undefined => (getPath dv (p :: rest)).look
    | .obj _ _ =>
      readMerged ((if dv.isPlainObject then dv else .undefined).get p) (ov.get p) rest
    | .arr _ _ =>
      readMerged ((if dv.isArray then dv else .undefined).get p) (ov.get p) rest
    | _ => .undefined

/-- Two values show the same at every path. -/
def Agree (a b : JSVal) : Prop :=
  ∀ path, (getPath a path).look = (getPath b path).look

/-- The target accepts an assignment under `name`: any name on a plain object,
an index on an array. -/
def Accepts (t : JSVal) (name : PropName) : Prop :=
  t.isPlainObject = true ∨ (t.isArray = true ∧ ∃ i, name = .index i)

/-- The state in which a merge into `t` starts: the containers of the target
are recent (identity at least `base`) and so is every identity still to be
given. -/
structure Ready (base : Nat) (t : JSVal) (m : Mem) : Prop where
  fresh : ∀ i ∈ containerIds t, base ≤ i
  next : base ≤ m.next

/-- The value the merge rule lets win at a key: the override's, unless it is
`undefined` (or absent). -/
def effective (dv ov : JSVal) : JSVal := if ov = .undefined then dv else ov

/-- A host whose functions do nothing. -/
def quietHost : Host := fun _ self w => .normal self w

/-- A page on which the plugin was just loaded: the shipped defaults (an
object with identity `0`), no cached data, an empty console, no instance, and
`next` as the first unused identity. -/
def page (next : Nat) : World :=
  { defaults := shippedDefaults 0, data := [], console := [], instances := [],
    mem := { next := next, written := [] } }

mutual
/-- The value without the own properties named `__proto__` of its plain
objects, at every depth: what `jQuery.extend` reads of a source, since its loop
skips that name. -/
def strip : JSVal → JSVal
  | .obj i ps => .obj i (stripProps ps)
  | .arr i es => .arr i (stripElems es)
  | .undefined => .undefined
  | .null => .null
  | .bool b => .bool b
  | .num n => .num n
  | .str s => .str s
  | .func i => .func i
  | .other i => .other i
/-- The property list without the properties named `__proto__`, the values
stripped. -/
def stripProps : List (String × JSVal) → List (String × JSVal)
  | [] => []
  | (k, v) :: rest =>
    if k = "__proto__" then stripProps rest else (k, strip v) :: stripProps rest
/-- The elements, stripped. -/
def stripElems : List JSVal → List JSVal
  | [] => []
  | v :: rest => strip v :: stripElems rest
end

mutual
/-- Every plain object of the value has pairwise distinct property keys (as
every JavaScript object has). -/
def distinctKeys : JSVal → Bool
  | .obj _ ps => decide ((ps.map Prod.fst).Nodup) && distinctKeysProps ps
  | .arr _ es => distinctKeysElems es
  | .undefined => true
  | .null => true
  | .bool _ => true
  | .num _ => true
  | .str _ => true
  | .func _ => true
  | .other _ => true
/-- Distinct keys in the values of a property list. -/
def distinctKeysProps : List (String × JSVal) → Bool
  | [] => true
  | (_, v) :: rest => distinctKeys v && distinctKeysProps rest
/-- Distinct keys in the elements of an array. -/
def distinctKeysElems : List JSVal → Bool
  | [] => true
  | v :: rest => distinctKeys v && distinctKeysElems rest
end

/-! # Properties -/

/-! ## The message buffer -/

theorem displayName_eq : displayName = "JQueryPlugin" := by decide

theorem printAll_console (msgs : List Message) (w : World) :
    printAll msgs w =
      { w with console := w.console ++
          msgs.map (fun m => (m.type, displayName ++ ": " ++ m.content ++ ".")) } := by
  induction msgs generalizing w with
  | nil => simp [printAll]
  | cons m rest ih => simp [printAll, ih, World.consoleCall]

/-- C10: `_printMessages` writes one console line per buffered entry, in
insertion order, the line of entry `(type, content)` being
`"JQueryPlugin: " ++ content ++ "."` sent to the console method `type`; nothing
else of the state changes, and an empty buffer writes nothing. -/
theorem printMessages_lines (p : Plugin) (w : World) :
    displayName = "JQueryPlugin" ∧
    p._printMessages w =
      { w with console := w.console ++
          p.messages.map (fun m => (m.type, "JQueryPlugin: " ++ m.content ++ ".")) } ∧
    (p._printMessages w).console.length = w.console.length + p.messages.length ∧
    ({ p with messages := [] } : Plugin)._printMessages w = w := by
  refine ⟨displayName_eq, ?_, ?_, ?_⟩
  · simp [Plugin._printMessages, printAll_console, displayName_eq]
  · simp [Plugin._printMessages, printAll_console]
  · simp [Plugin._printMessages, printAll]

theorem allowedTypes_eq :
    allowedTypes = [Severity.plain, .error, .info, .warning].map Severity.method := rfl

theorem mem_allowedTypes_iff (t : String) :
    t ∈ allowedTypes ↔ ∃ s : Severity, t = s.method := by
  constructor
  · intro h
    simp only [allowedTypes, defaultType, List.mem_cons, List.mem_singleton, List.mem_nil_iff,
      or_false] at h
    rcases h with h | h | h | h
    · exact ⟨.plain, h⟩
    · exact ⟨.error, h⟩
    · exact ⟨.info, h⟩
    · exact ⟨.warning, h⟩
  · rintro ⟨s, rfl⟩
    cases s <;> decide

/-- C8: with a type that is not the type of any of the four severities
(`undefined` included), `_sendMessage` appends exactly one entry at the end of
the buffer, holding the content unchanged and the type of the default severity
`plain`, which is `log`; the earlier entries, the element and the settings are
unchanged. -/
theorem sendMessage_default (p : Plugin) (content : String) (type : JSVal)
    (h : ∀ s : Severity, type ≠ .str s.method) :
    (p._sendMessage content type).messages
        = p.messages ++ [{ type := Severity.plain.method, content := content }] ∧
    Severity.plain.method = "log" ∧
    (p._sendMessage content type).element = p.element ∧
    (p._sendMessage content type).settings = p.settings := by
  refine ⟨?_, rfl, rfl, rfl⟩
  cases type with
  | str t =>
    have ht : t ∉ allowedTypes := fun hmem => by
      obtain ⟨s, hs⟩ := (mem_allowedTypes_iff t).1 hmem
      exact h s (by rw [hs])
    simp [Plugin._sendMessage, ht, defaultType, Severity.method]
  | _ => simp [Plugin._sendMessage, defaultType, Severity.method]

/-- Witness of C8: the type `'fatal'` is the type of no severity and is stored
as `log`. -/
theorem sendMessage_default_witness :
    (∀ s : Severity, JSVal.str "fatal" ≠ .str s.method) ∧
    ((Plugin.mk 3 .null [⟨"info", "a"⟩])._sendMessage "b" (.str "fatal")).messages
        = [⟨"info", "a"⟩] ++ [{ type := Severity.plain.method, content := "b" }] :=
  ⟨by intro s; cases s <;> decide,
    (sendMessage_default (Plugin.mk 3 .null [⟨"info", "a"⟩]) "b" (.str "fatal")
      (by intro s; cases s <;> decide)).1⟩

theorem sendMessage_type_allowed (p : Plugin) (content : String) (type : JSVal) :
    ∃ t ∈ allowedTypes,
      (p._sendMessage content type).messages = p.messages ++ [{ type := t, content := content }] := by
  cases type with
  | str t =>
    by_cases ht : t ∈ allowedTypes
    · exact ⟨t, ht, by simp [Plugin._sendMessage, ht]⟩
    · exact ⟨defaultType, by decide, by simp [Plugin._sendMessage, ht]⟩
  | _ => exact ⟨defaultType, by decide, by simp [Plugin._sendMessage]⟩

theorem sendAll_types_allowed (calls : List (String × JSVal)) (p : Plugin)
    (hp : ∀ m ∈ p.messages, m.type ∈ allowedTypes) :
    ∀ m ∈ (sendAll p calls).messages, m.type ∈ allowedTypes := by
  induction calls generalizing p with
  | nil => simpa [sendAll] using hp
  | cons c rest ih =>
    apply ih
    obtain ⟨t, ht, hm⟩ := sendMessage_type_allowed p c.1 c.2
    intro m hmem
    rw [hm] at hmem
    rcases List.mem_append.1 hmem with h1 | h1
    · exact hp m h1
    · simp at h1; subst h1; exact ht

/-! ## The dispatcher: method calls and invalid input -/

/-- C6: a dispatcher call whose first argument names an own member of `methods`
returns exactly what that member returns for the selection as receiver and the
trailing arguments (the name is dropped); `getInstance` yields the data cached
for the first selected element, `publicMethod` yields `undefined`; the state,
hence the list of constructed instances, is unchanged. -/
theorem dispatcher_method_call (host : Host) (this : List Nat) (args : List JSVal)
    (w : World) :
    methods.map Prod.fst = ["getInstance", "publicMethod"] ∧
    jQueryPlugin host this (.str "getInstance" :: args) w = methods.getInstance this args w ∧
    jQueryPlugin host this (.str "publicMethod" :: args) w = methods.publicMethod this args w ∧
    jQueryPlugin host this (.str "getInstance" :: args) w = .normal (.value (w.jqData this)) w ∧
    jQueryPlugin host this (.str "publicMethod" :: args) w = .normal (.value .undefined) w ∧
    (jQueryPlugin host this (.str "getInstance" :: args) w).world.instances = w.instances ∧
    (jQueryPlugin host this (.str "publicMethod" :: args) w).world.instances = w.instances := by
  refine ⟨rfl, rfl, rfl, rfl, rfl, rfl, rfl⟩

/-- C5 (failing inputs): the name `toString`, which is not a member of the
`methods` literal, is found through `Object.prototype`: the dispatcher calls it
and returns `"[object Object]"`, and the state, console included, is unchanged;
and `null`, whose `typeof` is `"object"`, is taken for a configuration: for the
selected element one instance is built and no console line is written. -/
theorem dispatcher_inherited_member (host : Host) (this : List Nat) (args : List JSVal)
    (w : World) :
    methods.lookup "toString" = none ∧
    jQueryPlugin host this (.str "toString" :: args) w
      = .normal (.value (.str "[object Object]")) w ∧
    (jQueryPlugin quietHost [7] [.null] (page 1)).world.instances.length = 1 ∧
    (jQueryPlugin quietHost [7] [.null] (page 1)).world.console = [] := by
  refine ⟨rfl, rfl, by decide, by decide⟩

/-- On a string the dispatcher is `dispatchString`. -/
theorem dispatcher_string (host : Host) (this : List Nat) (s : String) (args : List JSVal)
    (w : World) :
    jQueryPlugin host this (.str s :: args) w = dispatchString s this args w := by
  simp only [jQueryPlugin, dispatchString, List.headD_cons, toJSString, List.drop_succ_cons,
    List.drop_zero]
  cases methodsLookup s with
  | some m => rfl
  | none => simp [typeOf]

/-- An argument that `methods` does not resolve and whose `typeof` is not
`"object"` gives one console error line, no instance and `undefined`. -/
theorem dispatcher_invalid (host : Host) (this : List Nat) (config : JSVal)
    (args : List JSVal) (w : World)
    (h1 : methodsLookup (toJSString config) = none) (h2 : typeOf config ≠ "object") :
    jQueryPlugin host this (config :: args) w
      = .normal (.value .undefined)
          { w with console := w.console ++ [("error", "JQueryPlugin: invalid options.")] } := by
  simp [jQueryPlugin, h1, h2, World.consoleCall, displayName_eq]

/-! ## Construction of instances -/

theorem dispatchString_publicMethod (this : List Nat) (args : List JSVal) (w : World) :
    dispatchString "publicMethod" this args w = .normal (.value .undefined) w := rfl

theorem new_spec (host : Host) (hb : WellBehaved host) (element : Nat) (options : JSVal)
    (w : World) :
    ∃ out,
      Plugin.new host element options w =
        .normal
          { element := element, settings := (mkSettings w.defaults options w.mem).1,
            messages := initMessages (mkSettings w.defaults options w.mem).1 }
          { defaults := w.defaults,
            data := setData w.data element (mkSettings w.defaults options w.mem).1,
            console := w.console ++ out,
            instances := w.instances ++
              [{ element := element, settings := (mkSettings w.defaults options w.mem).1,
                 messages := initMessages (mkSettings w.defaults options w.mem).1 }],
            mem := (mkSettings w.defaults options w.mem).2 } := by
  generalize hs : mkSettings w.defaults options w.mem = s
  have hcall : ∀ (st : JSVal) (w1 : World),
      ∃ out, (match st.get (.name "pluginCallback") with
        | .func f => host f st w1
        | _ => Completion.normal st w1)
        = .normal st { w1 with console := w1.console ++ out } := by
    intro st w1
    cases hcb : st.get (.name "pluginCallback") with
    | func f =>
      obtain ⟨out, ho⟩ := hb f st w1
      exact ⟨out, by simp only [ho]⟩
    | _ => exact ⟨[], by simp⟩
  by_cases hstr : typeOf (s.1.get (.name "pluginParam")) = "string"
  · obtain ⟨out, ho⟩ := hcall s.1 { w with mem := s.2 }
    refine ⟨out, ?_⟩
    simp only [Plugin.new, Plugin._init, hs, hstr, dispatchString_publicMethod] at ho ⊢
    simp [ho, initMessages, hstr, Plugin._printMessages, printAll, World.dataSet]
  · obtain ⟨out, ho⟩ := hcall s.1 { w with mem := s.2 }
    refine ⟨out ++ [("error", "JQueryPlugin: missing pluginParam.")], ?_⟩
    simp only [Plugin.new, Plugin._init, hs, hstr, dispatchString_publicMethod,
      Plugin._sendMessage] at ho ⊢
    simp [ho, initMessages, hstr, Plugin._printMessages, printAll, World.dataSet,
      World.consoleCall, displayName_eq, allowedTypes]

/-- Whatever the functions of the page do, an instance whose construction ends
normally holds the buffer that `_init` filled from the merged settings. -/
theorem new_messages (host : Host) (element : Nat) (options : JSVal) (w w1 : World)
    (p : Plugin) (h : Plugin.new host element options w = .normal p w1) :
    p.messages = initMessages (mkSettings w.defaults options w.mem).1 := by
  generalize hs : mkSettings w.defaults options w.mem = s at h ⊢
  simp only [Plugin.new, Plugin._init, hs, dispatchString_publicMethod] at h
  by_cases hstr : typeOf (s.1.get (.name "pluginParam")) = "string"
  · simp only [hstr, ne_eq, not_true_eq_false, if_false] at h
    cases hcb : s.1.get (.name "pluginCallback") with
    | func f =>
      simp only [hcb] at h
      cases hh : host f s.1 { w with mem := s.2 } with
      | throw e w2 => simp [hh] at h
      | normal st w2 =>
        simp only [hh, Completion.normal.injEq] at h
        rw [← h.1]
        simp [initMessages, hstr]
    | _ =>
      simp only [hcb, Completion.normal.injEq] at h
      rw [← h.1]
      simp [initMessages, hstr]
  · simp only [hstr, ne_eq, not_false_eq_true, if_true, Plugin._sendMessage] at h
    cases hcb : s.1.get (.name "pluginCallback") with
    | func f =>
      simp only [hcb] at h
      cases hh : host f s.1 { w with mem := s.2 } with
      | throw e w2 => simp [hh] at h
      | normal st w2 =>
        simp only [hh, Completion.normal.injEq] at h
        rw [← h.1]
        simp [initMessages, hstr, allowedTypes]
    | _ =>
      simp only [hcb, Completion.normal.injEq] at h
      rw [← h.1]
      simp [initMessages, hstr, allowedTypes]

/-- C9: the types `_sendMessage` stores are those of the four severities, `log`
(plain), `error`, `info` and `warn` (warning): a call with the type of a
severity `s` appends the entry with the type of `s` itself; after any sequence
of calls on the empty buffer of a new instance every entry has the type of one
of the four severities, and so has every entry of an instance that the
constructor returns. -/
theorem sendMessage_severity (p : Plugin) (content : String) (s : Severity)
    (calls : List (String × JSVal)) (element : Nat) (settings : JSVal) :
    allowedTypes = [Severity.plain, .error, .info, .warning].map Severity.method ∧
    (p._sendMessage content (.str s.method)).messages
        = p.messages ++ [{ type := s.method, content := content }] ∧
    (∀ m ∈ (sendAll { element := element, settings := settings, messages := [] } calls).messages,
      ∃ s1 : Severity, m.type = s1.method) ∧
    ∀ (host : Host) (options : JSVal) (w w1 : World) (q : Plugin),
      Plugin.new host element options w = .normal q w1 →
      ∀ m ∈ q.messages, ∃ s1 : Severity, m.type = s1.method := by
  refine ⟨rfl, ?_, ?_, ?_⟩
  · have hs : s.method ∈ allowedTypes := (mem_allowedTypes_iff _).2 ⟨s, rfl⟩
    simp [Plugin._sendMessage, hs]
  · intro m hm
    exact (mem_allowedTypes_iff _).1 (sendAll_types_allowed calls _ (by simp) m hm)
  · intro host options w w1 q hq m hm
    rw [new_messages host element options w w1 q hq] at hm
    unfold initMessages at hm
    split at hm
    · simp at hm
    · simp only [List.mem_singleton] at hm
      exact ⟨.error, by rw [hm]; rfl⟩

/-! ## Identities of the objects inside a value -/

theorem mem_containerIdsProps_lookup {ps : List (String × JSVal)} {k : String} {v : JSVal}
    (h : ps.lookup k = some v) {i : Nat} (hi : i ∈ containerIds v) :
    i ∈ containerIdsProps ps := by
  induction ps with
  | nil => simp at h
  | cons kv rest ih =>
    obtain ⟨k1, v1⟩ := kv
    simp only [containerIdsProps, List.mem_append]
    by_cases hk : k = k1
    · subst hk
      simp [List.lookup] at h
      subst h
      exact Or.inl hi
    · have : (k == k1) = false := by simpa using hk
      simp [List.lookup, this] at h
      exact Or.inr (ih h)

theorem mem_containerIdsElems_getD {es : List JSVal} {n : Nat} {i : Nat}
    (hi : i ∈ containerIds (es.getD n .undefined)) : i ∈ containerIdsElems es := by
  induction es generalizing n with
  | nil => simp [containerIds] at hi
  | cons v rest ih =>
    simp only [containerIdsElems, List.mem_append]
    cases n with
    | zero => exact Or.inl (by simpa using hi)
    | succ n => exact Or.inr (ih (by simpa using hi))

theorem mem_containerIds_get {t : JSVal} {p : PropName} {i : Nat}
    (hi : i ∈ containerIds (t.get p)) : i ∈ containerIds t := by
  cases t with
  | obj j ps =>
    simp only [JSVal.get] at hi
    cases hl : ps.lookup p.toKey with
    | none => simp [hl, containerIds] at hi
    | some v =>
      simp only [hl, Option.getD_some] at hi
      simp only [containerIds, List.mem_cons]
      exact Or.inr (mem_containerIdsProps_lookup hl hi)
  | arr j es =>
    cases p with
    | name s => simp [JSVal.get, containerIds] at hi
    | index n =>
      simp only [JSVal.get] at hi
      simp only [containerIds, List.mem_cons]
      exact Or.inr (mem_containerIdsElems_getD hi)
  | _ => simp [JSVal.get, containerIds] at hi

theorem mem_containerIdsProps_setProp {ps : List (String × JSVal)} {k : String} {v : JSVal}
    {i : Nat} (hi : i ∈ containerIdsProps (setProp ps k v)) :
    i ∈ containerIdsProps ps ∨ i ∈ containerIds v := by
  induction ps with
  | nil => simpa [setProp, containerIdsProps] using hi
  | cons kv rest ih =>
    obtain ⟨k1, v1⟩ := kv
    by_cases hk : k1 = k
    · simp only [setProp, hk, if_true, containerIdsProps, List.mem_append] at hi ⊢
      rcases hi with h | h
      · exact Or.inr h
      · exact Or.inl (Or.inr h)
    · simp only [setProp, hk, if_false, containerIdsProps, List.mem_append] at hi ⊢
      rcases hi with h | h
      · exact Or.inl (Or.inl h)
      · rcases ih h with h2 | h2
        · exact Or.inl (Or.inr h2)
        · exact Or.inr h2

theorem mem_containerIdsElems_setElem {es : List JSVal} {n : Nat} {v : JSVal}
    {i : Nat} (hi : i ∈ containerIdsElems (setElem es n v)) :
    i ∈ containerIdsElems es ∨ i ∈ containerIds v := by
  induction n generalizing es with
  | zero =>
    cases es with
    | nil => simpa [setElem, containerIdsElems] using hi
    | cons x rest =>
      simp only [setElem, containerIdsElems, List.mem_append] at hi ⊢
      rcases hi with h | h
      · exact Or.inr h
      · exact Or.inl (Or.inr h)
  | succ n ih =>
    cases es with
    | nil =>
      simp only [setElem, containerIdsElems, containerIds, List.nil_append] at hi
      rcases ih hi with h | h
      · simp [containerIdsElems] at h
      · exact Or.inr h
    | cons x rest =>
      simp only [setElem, containerIdsElems, List.mem_append] at hi ⊢
      rcases hi with h | h
      · exact Or.inl (Or.inl h)
      · rcases ih h with h2 | h2
        · exact Or.inl (Or.inr h2)
        · exact Or.inr h2

theorem mem_containerIds_set {t : JSVal} {p : PropName} {v : JSVal} {i : Nat}
    (hi : i ∈ containerIds (t.set p v)) : i ∈ containerIds t ∨ i ∈ containerIds v := by
  cases t with
  | obj j ps =>
    simp only [JSVal.set, containerIds, List.mem_cons] at hi ⊢
    rcases hi with h | h
    · exact Or.inl (Or.inl h)
    · rcases mem_containerIdsProps_setProp h with h2 | h2
      · exact Or.inl (Or.inr h2)
      · exact Or.inr h2
  | arr j es =>
    cases p with
    | name s => exact Or.inl (by simpa [JSVal.set] using hi)
    | index n =>
      simp only [JSVal.set, containerIds, List.mem_cons] at hi ⊢
      rcases hi with h | h
      · exact Or.inl (Or.inl h)
      · rcases mem_containerIdsElems_setElem h with h2 | h2
        · exact Or.inl (Or.inr h2)
        · exact Or.inr h2
  | _ => exact Or.inl (by simpa [JSVal.set] using hi)

theorem shell_set (t : JSVal) (p : PropName) (v : JSVal) : (t.set p v).shell = t.shell := by
  cases t <;> cases p <;> simp [JSVal.set, JSVal.shell]

theorem isContainer_of_shell {a b : JSVal} (h : a.shell = b.shell) :
    a.isContainer = b.isContainer := by
  cases a <;> cases b <;> simp_all [JSVal.shell, JSVal.isContainer, isPlainObject, isArray]

theorem ident_mem_containerIds {t : JSVal} (h : t.isContainer = true) :
    ∃ i, t.ident? = some i ∧ i ∈ containerIds t := by
  cases t <;> simp_all [JSVal.isContainer, isPlainObject, isArray, ident?, containerIds]

/-! ## Allocation discipline of `jQuery.extend` -/

theorem Grows.rfl (t : JSVal) (m : Mem) : Grows t m t m :=
  ⟨Eq.refl _, Nat.le_refl _, fun _ h => Or.inl h, [], by simp, by simp⟩

theorem Grows.trans {t t1 t2 : JSVal} {m m1 m2 : Mem}
    (h1 : Grows t m t1 m1) (h2 : Grows t1 m1 t2 m2) : Grows t m t2 m2 := by
  refine ⟨h2.shell.trans h1.shell, Nat.le_trans h1.next h2.next, ?_, ?_⟩
  · intro i hi
    rcases h2.ids i hi with h | ⟨ha, hb⟩
    · rcases h1.ids i h with h3 | ⟨ha, hb⟩
      · exact Or.inl h3
      · exact Or.inr ⟨ha, Nat.lt_of_lt_of_le hb h2.next⟩
    · exact Or.inr ⟨Nat.le_trans h1.next ha, hb⟩
  · obtain ⟨ws1, e1, f1⟩ := h1.written
    obtain ⟨ws2, e2, f2⟩ := h2.written
    refine ⟨ws1 ++ ws2, by rw [e2, e1, List.append_assoc], ?_⟩
    intro i hi
    rcases List.mem_append.1 hi with h | h
    · rcases f1 i h with h3 | ⟨ha, hb⟩
      · exact Or.inl h3
      · exact Or.inr ⟨ha, Nat.lt_of_lt_of_le hb h2.next⟩
    · rcases f2 i h with h3 | ⟨ha, hb⟩
      · rcases h1.ids i h3 with h4 | ⟨ha, hb⟩
        · exact Or.inl h4
        · exact Or.inr ⟨ha, Nat.lt_of_lt_of_le hb h2.next⟩
      · exact Or.inr ⟨Nat.le_trans h1.next ha, hb⟩

/-- An assignment `t[p] = v` into a container, where the containers of `v` are
containers of `t` or recent ones. -/
theorem Grows.assign {t : JSVal} {m m1 : Mem} (p : PropName) (v : JSVal)
    (ht : t.isContainer = true) (hn : m.next ≤ m1.next)
    (hw : ∃ ws, m1.written = m.written ++ ws ∧
      ∀ i ∈ ws, i ∈ containerIds t ∨ (m.next ≤ i ∧ i < m1.next))
    (hv : ∀ i ∈ containerIds v, i ∈ containerIds t ∨ (m.next ≤ i ∧ i < m1.next)) :
    Grows t m (t.set p v) (m1.assigned t) := by
  obtain ⟨j, hj, hjm⟩ := ident_mem_containerIds ht
  have hnext : (m1.assigned t).next = m1.next := by simp [Mem.assigned, hj]
  refine ⟨shell_set t p v, by rw [hnext]; exact hn, ?_, ?_⟩
  · intro i hi
    rw [hnext]
    rcases mem_containerIds_set hi with h | h
    · exact Or.inl h
    · exact hv i h
  · obtain ⟨ws, e, f⟩ := hw
    refine ⟨ws ++ [j], by simp [Mem.assigned, hj, e], ?_⟩
    intro i hi
    rw [hnext]
    rcases List.mem_append.1 hi with h | h
    · exact f i h
    · simp at h; subst h; exact Or.inl hjm

/-- The recursive step: the merge ran on a `clone` that is a container of the
target or a new one, and its result is assigned into the target. -/
theorem Grows.nested {t clone r1 : JSVal} {m mc r2 : Mem} (p : PropName)
    (ht : t.isContainer = true)
    (hc : ∀ i ∈ containerIds clone, i ∈ containerIds t ∨ (m.next ≤ i ∧ i < mc.next))
    (hmc : m.next ≤ mc.next) (hwc : mc.written = m.written)
    (hG : Grows clone mc r1 r2) : Grows t m (t.set p r1) (r2.assigned t) := by
  have key : ∀ i, (i ∈ containerIds clone ∨ (mc.next ≤ i ∧ i < r2.next)) →
      (i ∈ containerIds t ∨ (m.next ≤ i ∧ i < r2.next)) := by
    intro i hi
    rcases hi with h | ⟨ha, hb⟩
    · rcases hc i h with h1 | ⟨ha, hb⟩
      · exact Or.inl h1
      · exact Or.inr ⟨ha, Nat.lt_of_lt_of_le hb hG.next⟩
    · exact Or.inr ⟨Nat.le_trans hmc ha, hb⟩
  apply Grows.assign p r1 ht (Nat.le_trans hmc hG.next)
  · obtain ⟨ws, e, f⟩ := hG.written
    exact ⟨ws, by rw [e, hwc], fun i hi => key i (f i hi)⟩
  · intro i hi
    exact key i (hG.ids i hi)

theorem Grows.scalar {t : JSVal} {m : Mem} (p : PropName) (v : JSVal)
    (ht : t.isContainer = true) (hv : containerIds v = []) :
    Grows t m (t.set p v) (m.assigned t) :=
  Grows.assign p v ht (Nat.le_refl _) ⟨[], by simp, by simp⟩ (by simp [hv])

/-! ### Unfolding `extendProp` -/

theorem extendProp_skip {t : JSVal} {name : PropName} {copy : JSVal} {m : Mem}
    (hg : skipped t name copy = true) :
    extendProp t name copy m = (t, m) := by
  cases copy <;> simp only [extendProp, hg, if_true]

theorem extendProp_undefined (t : JSVal) (name : PropName) (m : Mem) :
    extendProp t name .undefined m = (t, m) := by
  simp [extendProp]

theorem extendProp_scalar {t : JSVal} {name : PropName} {copy : JSVal} {m : Mem}
    (hg : skipped t name copy = false)
    (hc : copy.isContainer = false) (hu : copy ≠ .undefined) :
    extendProp t name copy m = (t.set name copy, m.assigned t) := by
  cases copy <;>
    simp_all [extendProp, JSVal.isContainer, isPlainObject, isArray]

theorem extendProp_obj_src {t : JSVal} {name : PropName} {j : Nat}
    {ps : List (String × JSVal)} {m : Mem}
    (hg : skipped t name (.obj j ps) = false)
    (hsrc : (t.get name).isPlainObject = true) :
    extendProp t name (.obj j ps) m =
      (t.set name (extendProps (t.get name) ps m).1,
        (extendProps (t.get name) ps m).2.assigned t) := by
  simp [extendProp, hg, hsrc]

theorem extendProp_obj_new {t : JSVal} {name : PropName} {j : Nat}
    {ps : List (String × JSVal)} {m : Mem}
    (hg : skipped t name (.obj j ps) = false)
    (hsrc : (t.get name).isPlainObject = false) :
    extendProp t name (.obj j ps) m =
      (t.set name (extendProps m.newObject.1 ps m.newObject.2).1,
        (extendProps m.newObject.1 ps m.newObject.2).2.assigned t) := by
  simp [extendProp, hg, hsrc]

theorem extendProp_arr_src {t : JSVal} {name : PropName} {j : Nat}
    {es : List JSVal} {m : Mem}
    (hg : skipped t name (.arr j es) = false)
    (hsrc : (t.get name).isArray = true) :
    extendProp t name (.arr j es) m =
      (t.set name (extendElems (t.get name) es 0 m).1,
        (extendElems (t.get name) es 0 m).2.assigned t) := by
  simp [extendProp, hg, hsrc]

theorem extendProp_arr_new {t : JSVal} {name : PropName} {j : Nat}
    {es : List JSVal} {m : Mem}
    (hg : skipped t name (.arr j es) = false)
    (hsrc : (t.get name).isArray = false) :
    extendProp t name (.arr j es) m =
      (t.set name (extendElems m.newArray.1 es 0 m.newArray.2).1,
        (extendElems m.newArray.1 es 0 m.newArray.2).2.assigned t) := by
  simp [extendProp, hg, hsrc]

theorem extendProp_grows_scalar (copy t : JSVal) (name : PropName) (m : Mem)
    (ht : t.isContainer = true) (hc : copy.isContainer = false) :
    Grows t m (extendProp t name copy m).1 (extendProp t name copy m).2 := by
  cases hg : skipped t name copy
  · by_cases hu : copy = .undefined
    · subst hu; rw [extendProp_undefined]; exact Grows.rfl t m
    · rw [extendProp_scalar hg hc hu]
      exact Grows.scalar name _ ht (by
        cases copy <;> simp_all [JSVal.isContainer, isPlainObject, isArray, containerIds])
  · rw [extendProp_skip hg]; exact Grows.rfl t m

mutual
theorem extendProp_grows : ∀ (copy t : JSVal) (name : PropName) (m : Mem),
    t.isContainer = true →
    Grows t m (extendProp t name copy m).1 (extendProp t name copy m).2
  | .undefined, t, name, m, ht => extendProp_grows_scalar _ t name m ht rfl
  | .null, t, name, m, ht => extendProp_grows_scalar _ t name m ht rfl
  | .bool _, t, name, m, ht => extendProp_grows_scalar _ t name m ht rfl
  | .num _, t, name, m, ht => extendProp_grows_scalar _ t name m ht rfl
  | .str _, t, name, m, ht => extendProp_grows_scalar _ t name m ht rfl
  | .func _, t, name, m, ht => extendProp_grows_scalar _ t name m ht rfl
  | .other _, t, name, m, ht => extendProp_grows_scalar _ t name m ht rfl
  | .obj j ps, t, name, m, ht => by
    cases hg : skipped t name (.obj j ps)
    · cases hsrc : (t.get name).isPlainObject
      · rw [extendProp_obj_new hg hsrc]
        refine Grows.nested name ht ?_ ?_ ?_
          (extendProps_grows ps m.newObject.1 m.newObject.2
            (by simp [Mem.newObject, JSVal.isContainer, isPlainObject]))
        · intro i hi
          have h : i = m.next := by
            simpa [Mem.newObject, containerIds, containerIdsProps] using hi
          subst h; exact Or.inr ⟨Nat.le_refl _, Nat.lt_succ_self _⟩
        · exact Nat.le_succ _
        · rfl
      · rw [extendProp_obj_src hg hsrc]
        refine Grows.nested name ht ?_ ?_ ?_
          (extendProps_grows ps (t.get name) m (by simp [JSVal.isContainer, hsrc]))
        · exact fun i hi => Or.inl (mem_containerIds_get hi)
        · exact Nat.le_refl _
        · rfl
    · rw [extendProp_skip hg]; exact Grows.rfl t m
  | .arr j es, t, name, m, ht => by
    cases hg : skipped t name (.arr j es)
    · cases hsrc : (t.get name).isArray
      · rw [extendProp_arr_new hg hsrc]
        refine Grows.nested name ht ?_ ?_ ?_
          (extendElems_grows es m.newArray.1 0 m.newArray.2
            (by simp [Mem.newArray, JSVal.isContainer, isArray]))
        · intro i hi
          have h : i = m.next := by
            simpa [Mem.newArray, containerIds, containerIdsElems] using hi
          subst h; exact Or.inr ⟨Nat.le_refl _, Nat.lt_succ_self _⟩
        · exact Nat.le_succ _
        · rfl
      · rw [extendProp_arr_src hg hsrc]
        refine Grows.nested name ht ?_ ?_ ?_
          (extendElems_grows es (t.get name) 0 m (by simp [JSVal.isContainer, hsrc]))
        · exact fun i hi => Or.inl (mem_containerIds_get hi)
        · exact Nat.le_refl _
        · rfl
    · rw [extendProp_skip hg]; exact Grows.rfl t m
theorem extendProps_grows : ∀ (ps : List (String × JSVal)) (t : JSVal) (m : Mem),
    t.isContainer = true →
    Grows t m (extendProps t ps m).1 (extendProps t ps m).2
  | [], t, m, _ => Grows.rfl t m
  | (k, copy) :: rest, t, m, ht => by
    show Grows t m (extendProps (extendProp t (.name k) copy m).1 rest
      (extendProp t (.name k) copy m).2).1 (extendProps (extendProp t (.name k) copy m).1 rest
      (extendProp t (.name k) copy m).2).2
    have h1 := extendProp_grows copy t (.name k) m ht
    have ht1 : (extendProp t (.name k) copy m).1.isContainer = true := by
      rw [isContainer_of_shell h1.shell]; exact ht
    exact h1.trans (extendProps_grows rest _ _ ht1)
theorem extendElems_grows : ∀ (es : List JSVal) (t : JSVal) (i : Nat) (m : Mem),
    t.isContainer = true →
    Grows t m (extendElems t es i m).1 (extendElems t es i m).2
  | [], t, i, m, _ => Grows.rfl t m
  | copy :: rest, t, i, m, ht => by
    show Grows t m (extendElems (extendProp t (.index i) copy m).1 rest (i + 1)
      (extendProp t (.index i) copy m).2).1 (extendElems (extendProp t (.index i) copy m).1 rest
      (i + 1) (extendProp t (.index i) copy m).2).2
    have h1 := extendProp_grows copy t (.index i) m ht
    have ht1 : (extendProp t (.index i) copy m).1.isContainer = true := by
      rw [isContainer_of_shell h1.shell]; exact ht
    exact h1.trans (extendElems_grows rest _ _ _ ht1)
end

theorem extendInto_grows (t options : JSVal) (m : Mem) (ht : t.isContainer = true) :
    Grows t m (extendInto t options m).1 (extendInto t options m).2 := by
  cases options with
  | obj j ps => exact extendProps_grows ps t m ht
  | arr j es => exact extendElems_grows es t 0 m ht
  | _ => exact Grows.rfl t m

theorem jQueryExtendDeep_grows (sources : List JSVal) (t : JSVal) (m : Mem)
    (ht : t.isContainer = true) :
    Grows t m (jQueryExtendDeep t sources m).1 (jQueryExtendDeep t sources m).2 := by
  induction sources generalizing t m with
  | nil => exact Grows.rfl t m
  | cons o rest ih =>
    simp only [jQueryExtendDeep]
    have h1 := extendInto_grows t o m ht
    exact h1.trans (ih _ _ (by rw [isContainer_of_shell h1.shell]; exact ht))

/-- The settings of a new instance: a plain object with the fresh identity
`m.next`; all its containers were created by the merge, and every assignment
of the merge went into a container created by the merge. -/
theorem mkSettings_fresh (defaults options : JSVal) (m : Mem) :
    (mkSettings defaults options m).1.shell = .obj m.next [] ∧
    m.next < (mkSettings defaults options m).2.next ∧
    (∀ i ∈ containerIds (mkSettings defaults options m).1,
      m.next ≤ i ∧ i < (mkSettings defaults options m).2.next) ∧
    ∃ ws, (mkSettings defaults options m).2.written = m.written ++ ws ∧
      ∀ i ∈ ws, m.next ≤ i ∧ i < (mkSettings defaults options m).2.next := by
  have h := jQueryExtendDeep_grows [defaults, options] m.newObject.1 m.newObject.2
    (by simp [Mem.newObject, JSVal.isContainer, isPlainObject])
  have hn : m.newObject.2.next = m.next + 1 := rfl
  have hids : ∀ i, (i ∈ containerIds m.newObject.1 ∨
      (m.newObject.2.next ≤ i ∧ i < (mkSettings defaults options m).2.next)) →
      m.next ≤ i ∧ i < (mkSettings defaults options m).2.next := by
    intro i hi
    have hle : m.next + 1 ≤ (mkSettings defaults options m).2.next := h.next
    rcases hi with h1 | ⟨ha, hb⟩
    · simp [Mem.newObject, containerIds, containerIdsProps] at h1
      omega
    · rw [hn] at ha; omega
  refine ⟨h.shell, h.next, fun i hi => hids i (h.ids i hi), ?_⟩
  obtain ⟨ws, e, f⟩ := h.written
  exact ⟨ws, e, fun i hi => hids i (f i hi)⟩

/-! ## Many elements -/

theorem lookup_setData (d : List (Nat × JSVal)) (e : Nat) (v : JSVal) (e1 : Nat) :
    (setData d e v).lookup e1 = if e1 = e then some v else d.lookup e1 := by
  induction d with
  | nil =>
    by_cases h : e1 = e
    · simp [setData, List.lookup, h]
    · have : (e1 == e) = false := by simpa using h
      simp [setData, List.lookup, h, this]
  | cons kv rest ih =>
    obtain ⟨k, x⟩ := kv
    by_cases hk : k = e
    · subst hk
      by_cases h : e1 = k
      · simp [setData, List.lookup, h]
      · have : (e1 == k) = false := by simpa using h
        simp [setData, List.lookup, h, this]
    · by_cases h : e1 = k
      · subst h
        simp [setData, List.lookup, hk]
      · have : (e1 == k) = false := by simpa using h
        simp [setData, List.lookup, hk, this, ih]

/-- What the loop over the selection does when the callbacks are well behaved:
it ends normally having built the instances `ps`, one per element and in the
order of the selection. -/
theorem eachNew_spec (host : Host) (hb : WellBehaved host) (config : JSVal)
    (els : List Nat) (w : World) :
    ∃ ps w1, eachNew host config els w = .normal () w1 ∧
      w1.instances = w.instances ++ ps ∧
      ps.map Plugin.element = els ∧
      w1.defaults = w.defaults ∧
      w.mem.next ≤ w1.mem.next ∧
      (∀ p ∈ ps, ∃ m, w.mem.next ≤ m.next ∧
        p.settings = (mkSettings w.defaults config m).1 ∧
        p.messages = initMessages p.settings ∧
        ∀ i ∈ containerIds p.settings, w.mem.next ≤ i ∧ i < w1.mem.next) ∧
      ps.Pairwise (fun p q => ∀ i ∈ containerIds p.settings, i ∉ containerIds q.settings) ∧
      (∀ e ∈ els, ∃ p ∈ ps, p.element = e ∧ w1.dataOf e = p.settings) ∧
      (∀ e, e ∉ els → w1.dataOf e = w.dataOf e) := by
  induction els generalizing w with
  | nil =>
    refine ⟨[], w, rfl, by simp, rfl, rfl, Nat.le_refl _, by simp, List.Pairwise.nil,
      by simp, fun _ _ => rfl⟩
  | cons e rest ih =>
    obtain ⟨out, hnew⟩ := new_spec host hb e config w
    obtain ⟨hshell, hlt, hids, -⟩ := mkSettings_fresh w.defaults config w.mem
    generalize hs : mkSettings w.defaults config w.mem = s at hnew hshell hlt hids
    obtain ⟨ps, w1, hrun, hinst, hmap, hdef, hnext, hall, hpair, hdata, hframe⟩ :=
      ih { defaults := w.defaults, data := setData w.data e s.1, console := w.console ++ out,
           instances := w.instances ++
             [{ element := e, settings := s.1, messages := initMessages s.1 }],
           mem := s.2 }
    simp only at hinst hdef hnext hall
    refine ⟨{ element := e, settings := s.1, messages := initMessages s.1 } :: ps, w1,
      ?_, ?_, ?_, hdef, Nat.le_trans (Nat.le_of_lt hlt) hnext, ?_, ?_, ?_, ?_⟩
    · simp only [eachNew, hnew, hrun]
    · rw [hinst]; simp
    · simp [hmap]
    · intro p hp
      rcases List.mem_cons.1 hp with h | h
      · subst h
        refine ⟨w.mem, Nat.le_refl _, by rw [hs], rfl, ?_⟩
        intro i hi
        exact ⟨(hids i hi).1, Nat.lt_of_lt_of_le (hids i hi).2 hnext⟩
      · obtain ⟨m, hm, hset, hmsg, hb2⟩ := hall p h
        refine ⟨m, Nat.le_trans (Nat.le_of_lt hlt) hm, hset, hmsg, ?_⟩
        intro i hi
        exact ⟨Nat.le_trans (Nat.le_of_lt hlt) (hb2 i hi).1, (hb2 i hi).2⟩
    · refine List.Pairwise.cons ?_ hpair
      intro q hq i hi hiq
      obtain ⟨m, -, -, -, hb2⟩ := hall q hq
      have h1 := (hids i hi).2
      have h2 := (hb2 i hiq).1
      omega
    · intro e1 he1
      by_cases hin : e1 ∈ rest
      · obtain ⟨p, hp, hpe, hpd⟩ := hdata e1 hin
        exact ⟨p, List.mem_cons_of_mem _ hp, hpe, hpd⟩
      · have he : e1 = e := by
          rcases List.mem_cons.1 he1 with h | h
          · exact h
          · exact absurd h hin
        subst he
        refine ⟨_, List.mem_cons_self _ _, rfl, ?_⟩
        rw [hframe e1 hin]
        simp [World.dataOf, lookup_setData]
    · intro e1 he1
      have h1 : e1 ≠ e := fun h => he1 (by simp [h])
      have h2 : e1 ∉ rest := fun h => he1 (List.mem_cons_of_mem _ h)
      rw [hframe e1 h2]
      simp [World.dataOf, lookup_setData, h1]

/-! ## What the merge computes -/

theorem get_undefined (p : PropName) : JSVal.undefined.get p = .undefined := by
  cases p <;> rfl

theorem getPath_undefined (path : List PropName) : getPath .undefined path = .undefined := by
  induction path with
  | nil => rfl
  | cons p rest ih => simp [getPath, get_undefined, ih]

theorem get_of_not_container {v : JSVal} (h : v.isContainer = false) (p : PropName) :
    v.get p = .undefined := by
  cases v <;> simp_all [JSVal.get, JSVal.isContainer, isPlainObject, isArray]

theorem look_of_not_container {v : JSVal} (h : v.isContainer = false) : v.look = v := by
  cases v <;> simp_all [JSVal.look, JSVal.isContainer, isPlainObject, isArray]

theorem readMerged_undefined_right (dv : JSVal) (path : List PropName) :
    readMerged dv .undefined path = (getPath dv path).look := by
  cases path <;> simp [readMerged, getPath]

theorem readMerged_undefined_left (ov : JSVal) (path : List PropName) :
    readMerged .undefined ov path = (getPath ov path).look := by
  induction path generalizing ov with
  | nil =>
    by_cases h : ov = .undefined
    · simp [readMerged, getPath, h]
    · simp [readMerged, getPath, h]
  | cons p rest ih =>
    cases ov <;>
      simp [readMerged, getPath, get_undefined, getPath_undefined, ih, isPlainObject, isArray,
        JSVal.get, JSVal.look]

theorem Agree.below {a b : JSVal} (h : Agree a b) (p : PropName) : Agree (a.get p) (b.get p) :=
  fun path => h (p :: path)

theorem Agree.isPlainObject {a b : JSVal} (h : Agree a b) :
    a.isPlainObject = b.isPlainObject := by
  have := h []
  cases a <;> cases b <;> first | rfl | simp [getPath, JSVal.look] at this

theorem Agree.isArray {a b : JSVal} (h : Agree a b) : a.isArray = b.isArray := by
  have := h []
  cases a <;> cases b <;> first | rfl | simp [getPath, JSVal.look] at this

theorem Agree.refl (a : JSVal) : Agree a a := fun _ => rfl

theorem readMerged_congr {a b : JSVal} (h : Agree a b) (ov : JSVal) (path : List PropName) :
    readMerged a ov path = readMerged b ov path := by
  induction path generalizing a b ov with
  | nil =>
    have := h []
    simp only [getPath] at this
    simp [readMerged, this]
  | cons p rest ih =>
    cases ov with
    | undefined => simpa [readMerged] using h (p :: rest)
    | obj j ps =>
      simp only [readMerged]
      apply ih
      rw [h.isPlainObject]
      cases b.isPlainObject
      · exact Agree.refl _
      · exact h.below p
    | arr j es =>
      simp only [readMerged]
      apply ih
      rw [h.isArray]
      cases b.isArray
      · exact Agree.refl _
      · exact h.below p
    | _ => simp [readMerged]

/-! ### Reading after an assignment -/

theorem lookup_setProp (ps : List (String × JSVal)) (k : String) (v : JSVal) (k1 : String) :
    (setProp ps k v).lookup k1 = if k1 = k then some v else ps.lookup k1 := by
  induction ps with
  | nil =>
    by_cases h : k1 = k
    · simp [setProp, List.lookup, h]
    · have : (k1 == k) = false := by simpa using h
      simp [setProp, List.lookup, h, this]
  | cons kv rest ih =>
    obtain ⟨k2, x⟩ := kv
    by_cases hk : k2 = k
    · subst hk
      by_cases h : k1 = k2
      · simp [setProp, List.lookup, h]
      · have : (k1 == k2) = false := by simpa using h
        simp [setProp, List.lookup, h, this]
    · by_cases h : k1 = k2
      · subst h
        simp [setProp, List.lookup, hk]
      · have : (k1 == k2) = false := by simpa using h
        simp [setProp, List.lookup, hk, this, ih]

theorem getD_setElem (es : List JSVal) (i : Nat) (v : JSVal) (n : Nat) :
    (setElem es i v).getD n .undefined = if n = i then v else es.getD n .undefined := by
  induction i generalizing es n with
  | zero =>
    cases es with
    | nil => cases n <;> simp [setElem]
    | cons x rest => cases n <;> simp [setElem]
  | succ i ih =>
    cases es with
    | nil =>
      cases n with
      | zero => simp [setElem]
      | succ n =>
        rw [setElem, List.getD_cons_succ, ih]
        simp
    | cons x rest =>
      cases n with
      | zero => simp [setElem]
      | succ n =>
        rw [setElem, List.getD_cons_succ, ih]
        simp

theorem getElem_setElem (es : List JSVal) (i : Nat) (v : JSVal) (n : Nat) :
    (setElem es i v)[n]?.getD .undefined = if n = i then v else es[n]?.getD .undefined := by
  have := getD_setElem es i v n
  simpa using this

theorem get_set_same {t : JSVal} {name : PropName} (h : Accepts t name) (v : JSVal) :
    (t.set name v).get name = v := by
  rcases h with h | ⟨h, i, hi⟩
  · cases t <;> simp_all [isPlainObject, JSVal.set, JSVal.get, lookup_setProp]
  · subst hi
    cases t <;> simp_all [isArray, JSVal.set, JSVal.get, getElem_setElem]

theorem get_set_key {t : JSVal} (ht : t.isPlainObject = true) (name q : PropName)
    (v : JSVal) (h : q.toKey ≠ name.toKey) : (t.set name v).get q = t.get q := by
  cases t <;> simp_all [isPlainObject, JSVal.set, JSVal.get, lookup_setProp]

theorem get_set_index {t : JSVal} (ht : t.isArray = true) (i n : Nat)
    (v : JSVal) (h : n ≠ i) : (t.set (.index i) v).get (.index n) = t.get (.index n) := by
  cases t <;> simp_all [isArray, JSVal.set, JSVal.get, getElem_setElem]

/-- One turn of the loop leaves the target as it is or assigns under `name`. -/
theorem extendProp_result (t : JSVal) (name : PropName) (copy : JSVal) (m : Mem) :
    (extendProp t name copy m).1 = t ∨ ∃ x, (extendProp t name copy m).1 = t.set name x := by
  cases hg : skipped t name copy
  · cases copy with
    | undefined => exact Or.inl (by rw [extendProp_undefined])
    | obj j ps =>
      cases hsrc : (t.get name).isPlainObject
      · exact Or.inr ⟨_, by rw [extendProp_obj_new hg hsrc]⟩
      · exact Or.inr ⟨_, by rw [extendProp_obj_src hg hsrc]⟩
    | arr j es =>
      cases hsrc : (t.get name).isArray
      · exact Or.inr ⟨_, by rw [extendProp_arr_new hg hsrc]⟩
      · exact Or.inr ⟨_, by rw [extendProp_arr_src hg hsrc]⟩
    | null => exact Or.inr ⟨_, by rw [extendProp_scalar hg rfl (by simp)]⟩
    | bool b => exact Or.inr ⟨_, by rw [extendProp_scalar hg rfl (by simp)]⟩
    | num n => exact Or.inr ⟨_, by rw [extendProp_scalar hg rfl (by simp)]⟩
    | str s => exact Or.inr ⟨_, by rw [extendProp_scalar hg rfl (by simp)]⟩
    | func i => exact Or.inr ⟨_, by rw [extendProp_scalar hg rfl (by simp)]⟩
    | other i => exact Or.inr ⟨_, by rw [extendProp_scalar hg rfl (by simp)]⟩
  · exact Or.inl (by rw [extendProp_skip hg])

theorem extendProp_get_key {t : JSVal} (ht : t.isPlainObject = true) (name q : PropName)
    (copy : JSVal) (m : Mem) (h : q.toKey ≠ name.toKey) :
    (extendProp t name copy m).1.get q = t.get q := by
  rcases extendProp_result t name copy m with h1 | ⟨x, h1⟩
  · rw [h1]
  · rw [h1, get_set_key ht name q x h]

theorem extendProp_get_index {t : JSVal} (ht : t.isArray = true) (i n : Nat)
    (copy : JSVal) (m : Mem) (h : n ≠ i) :
    (extendProp t (.index i) copy m).1.get (.index n) = t.get (.index n) := by
  rcases extendProp_result t (.index i) copy m with h1 | ⟨x, h1⟩
  · rw [h1]
  · rw [h1, get_set_index ht i n x h]

/-! ### The merge against the rule -/

theorem Ready.grows {base : Nat} {t t1 : JSVal} {m m1 : Mem} (h : Ready base t m)
    (g : Grows t m t1 m1) : Ready base t1 m1 := by
  refine ⟨?_, Nat.le_trans h.next g.next⟩
  intro i hi
  rcases g.ids i hi with h1 | ⟨h1, -⟩
  · exact h.fresh i h1
  · exact Nat.le_trans h.next h1

theorem Ready.inner {base : Nat} {t : JSVal} {m : Mem} (h : Ready base t m) (p : PropName) :
    Ready base (t.get p) m :=
  ⟨fun i hi => h.fresh i (mem_containerIds_get hi), h.next⟩

theorem Ready.newObject {base : Nat} {t : JSVal} {m : Mem} (h : Ready base t m) :
    Ready base m.newObject.1 m.newObject.2 := by
  refine ⟨?_, Nat.le_trans h.next (Nat.le_succ _)⟩
  intro i hi
  have e : i = m.next := by simpa [Mem.newObject, containerIds, containerIdsProps] using hi
  rw [e]; exact h.next

theorem Ready.newArray {base : Nat} {t : JSVal} {m : Mem} (h : Ready base t m) :
    Ready base m.newArray.1 m.newArray.2 := by
  refine ⟨?_, Nat.le_trans h.next (Nat.le_succ _)⟩
  intro i hi
  have e : i = m.next := by simpa [Mem.newArray, containerIds, containerIdsElems] using hi
  rw [e]; exact h.next

theorem ident_mem_allIds {v : JSVal} {j : Nat} (h : v.ident? = some j) : j ∈ allIds v := by
  cases v <;> simp_all [ident?, allIds]

theorem skipped_eq_false {base : Nat} {t : JSVal} {name : PropName} {copy : JSVal} {m : Mem}
    (ht : t.isContainer = true) (hn : name ≠ .name "__proto__") (hr : Ready base t m)
    (hc : ∀ i ∈ allIds copy, i < base) : skipped t name copy = false := by
  obtain ⟨i, hi, him⟩ := ident_mem_containerIds ht
  have h1 := hr.fresh i him
  simp only [skipped, hn, decide_False, Bool.false_or, sameObject, hi]
  cases hj : copy.ident? with
  | none => rfl
  | some j =>
    have h2 := hc j (ident_mem_allIds hj)
    simp only [beq_eq_false_iff_ne, ne_eq]
    omega

theorem look_of_shell {a b : JSVal} (h : a.shell = b.shell) : a.look = b.look := by
  cases a <;> cases b <;> simp_all [JSVal.shell, JSVal.look]

theorem isPlainObject_of_shell {a b : JSVal} (h : a.shell = b.shell) :
    a.isPlainObject = b.isPlainObject := by
  cases a <;> cases b <;> simp_all [JSVal.shell, isPlainObject]

theorem isArray_of_shell {a b : JSVal} (h : a.shell = b.shell) :
    a.isArray = b.isArray := by
  cases a <;> cases b <;> simp_all [JSVal.shell, isArray]

theorem readMerged_scalar (dv : JSVal) {ov : JSVal} (hc : ov.isContainer = false)
    (hu : ov ≠ .undefined) (path : List PropName) :
    readMerged dv ov path = (getPath ov path).look := by
  cases path with
  | nil => simp [readMerged, hu, getPath]
  | cons p rest =>
    have hget : getPath ov (p :: rest) = .undefined := by
      simp [getPath, get_of_not_container hc, getPath_undefined]
    rw [hget]
    cases ov <;> simp_all [readMerged, JSVal.isContainer, isPlainObject, isArray, JSVal.look]

theorem extendProp_reads_scalar (copy t : JSVal) (name : PropName) (m : Mem) (base : Nat)
    (rest : List PropName) (ht : t.isContainer = true) (ha : Accepts t name)
    (hn : name ≠ .name "__proto__") (hr : Ready base t m)
    (hc : ∀ i ∈ allIds copy, i < base) (hs : copy.isContainer = false) :
    (getPath ((extendProp t name copy m).1.get name) rest).look
      = readMerged (t.get name) copy rest := by
  by_cases hu : copy = .undefined
  · subst hu
    rw [extendProp_undefined, readMerged_undefined_right]
  · rw [extendProp_scalar (skipped_eq_false ht hn hr hc) hs hu, get_set_same ha,
      readMerged_scalar _ hs hu]

theorem get_congr_key {t : JSVal} (ht : t.isPlainObject = true) {p q : PropName}
    (h : p.toKey = q.toKey) : t.get p = t.get q := by
  cases t <;> simp_all [isPlainObject, JSVal.get]

theorem lookup_eq_none_of_not_mem {ps : List (String × JSVal)} {k : String}
    (h : k ∉ ps.map Prod.fst) : ps.lookup k = none := by
  induction ps with
  | nil => rfl
  | cons kv rest ih =>
    obtain ⟨k1, v1⟩ := kv
    simp only [List.map_cons, List.mem_cons, not_or] at h
    have : (k == k1) = false := by simpa using h.1
    simp [List.lookup, this, ih h.2]

theorem wellFormed_obj {j : Nat} {ps : List (String × JSVal)}
    (h : wellFormed (.obj j ps) = true) :
    (ps.map Prod.fst).Nodup ∧ "__proto__" ∉ ps.map Prod.fst ∧ wellFormedProps ps = true := by
  simpa [wellFormed, and_assoc] using h

theorem get_name_of_isArray {v : JSVal} (h : v.isArray = true) (s : String) :
    v.get (.name s) = .undefined := by
  cases v <;> simp_all [isArray, JSVal.get]

theorem look_of_isPlainObject {v : JSVal} (h : v.isPlainObject = true) :
    v.look = .obj 0 [] := by
  cases v <;> simp_all [isPlainObject, JSVal.look]

theorem look_of_isArray {v : JSVal} (h : v.isArray = true) : v.look = .arr 0 [] := by
  cases v <;> simp_all [isArray, JSVal.look]

theorem readMerged_obj_nil (dv : JSVal) (j : Nat) (ps : List (String × JSVal)) :
    readMerged dv (.obj j ps) [] = .obj 0 [] := by
  simp [readMerged, JSVal.look]

theorem readMerged_arr_nil (dv : JSVal) (j : Nat) (es : List JSVal) :
    readMerged dv (.arr j es) [] = .arr 0 [] := by
  simp [readMerged, JSVal.look]

theorem readMerged_obj_new {dv : JSVal} (h : dv.isPlainObject = false) (j : Nat)
    (ps : List (String × JSVal)) (p : PropName) (rest : List PropName) :
    readMerged dv (.obj j ps) (p :: rest)
      = readMerged .undefined ((ps.lookup p.toKey).getD .undefined) rest := by
  simp [readMerged, h, get_undefined, JSVal.get]

theorem readMerged_obj_src {dv : JSVal} (h : dv.isPlainObject = true) (j : Nat)
    (ps : List (String × JSVal)) (p : PropName) (rest : List PropName) :
    readMerged dv (.obj j ps) (p :: rest)
      = readMerged (dv.get p) ((ps.lookup p.toKey).getD .undefined) rest := by
  simp [readMerged, h, JSVal.get]

theorem readMerged_arr_name (dv : JSVal) (j : Nat) (es : List JSVal) (s : String)
    (rest : List PropName) :
    readMerged dv (.arr j es) (.name s :: rest) = .undefined := by
  have h : (if dv.isArray = true then dv else JSVal.undefined).get (.name s) = .undefined := by
    cases hd : dv.isArray
    · simp [get_undefined]
    · simp [get_name_of_isArray hd]
  simp only [readMerged, h]
  simp [JSVal.get, readMerged_undefined_right, getPath_undefined, JSVal.look]

theorem readMerged_arr_new {dv : JSVal} (h : dv.isArray = false) (j : Nat)
    (es : List JSVal) (n : Nat) (rest : List PropName) :
    readMerged dv (.arr j es) (.index n :: rest)
      = readMerged .undefined (es.getD n .undefined) rest := by
  simp only [readMerged, h, JSVal.get, get_undefined]
  simp

theorem readMerged_arr_src {dv : JSVal} (h : dv.isArray = true) (j : Nat)
    (es : List JSVal) (n : Nat) (rest : List PropName) :
    readMerged dv (.arr j es) (.index n :: rest)
      = readMerged (dv.get (.index n)) (es.getD n .undefined) rest := by
  simp only [readMerged, h, JSVal.get]
  simp

theorem newObject_get (m : Mem) (p : PropName) : m.newObject.1.get p = .undefined := by
  simp [Mem.newObject, JSVal.get]

theorem newArray_get (m : Mem) (p : PropName) : m.newArray.1.get p = .undefined := by
  cases p <;> simp [Mem.newArray, JSVal.get]

mutual
theorem extendProp_reads : ∀ (copy t : JSVal) (name : PropName) (m : Mem) (base : Nat)
    (rest : List PropName), t.isContainer = true → Accepts t name →
    name ≠ .name "__proto__" → Ready base t m →
    (∀ i ∈ allIds copy, i < base) → wellFormed copy = true →
    (getPath ((extendProp t name copy m).1.get name) rest).look
      = readMerged (t.get name) copy rest
  | .undefined, t, name, m, base, rest, ht, ha, hn, hr, hc, _ =>
    extendProp_reads_scalar _ t name m base rest ht ha hn hr hc rfl
  | .null, t, name, m, base, rest, ht, ha, hn, hr, hc, _ =>
    extendProp_reads_scalar _ t name m base rest ht ha hn hr hc rfl
  | .bool _, t, name, m, base, rest, ht, ha, hn, hr, hc, _ =>
    extendProp_reads_scalar _ t name m base rest ht ha hn hr hc rfl
  | .num _, t, name, m, base, rest, ht, ha, hn, hr, hc, _ =>
    extendProp_reads_scalar _ t name m base rest ht ha hn hr hc rfl
  | .str _, t, name, m, base, rest, ht, ha, hn, hr, hc, _ =>
    extendProp_reads_scalar _ t name m base rest ht ha hn hr hc rfl
  | .func _, t, name, m, base, rest, ht, ha, hn, hr, hc, _ =>
    extendProp_reads_scalar _ t name m base rest ht ha hn hr hc rfl
  | .other _, t, name, m, base, rest, ht, ha, hn, hr, hc, _ =>
    extendProp_reads_scalar _ t name m base rest ht ha hn hr hc rfl
  | .obj j ps, t, name, m, base, rest, ht, ha, hn, hr, hc, hw => by
    have hg := skipped_eq_false ht hn hr hc
    obtain ⟨hnd, hpr, hwp⟩ := wellFormed_obj hw
    have hcp : ∀ i ∈ allIdsProps ps, i < base := fun i hi =>
      hc i (by simp [allIds, hi])
    cases hsrc : (t.get name).isPlainObject
    · rw [extendProp_obj_new hg hsrc, get_set_same ha]
      have hplain : m.newObject.1.isPlainObject = true := rfl
      have hshell := (extendProps_grows ps m.newObject.1 m.newObject.2
        (by simp [JSVal.isContainer, hplain])).shell
      cases rest with
      | nil =>
        rw [readMerged_obj_nil]
        exact look_of_isPlainObject ((isPlainObject_of_shell hshell).trans hplain)
      | cons p rest1 =>
        rw [readMerged_obj_new hsrc]
        show (getPath ((extendProps m.newObject.1 ps m.newObject.2).1.get p) rest1).look = _
        rw [extendProps_reads ps m.newObject.1 m.newObject.2 base p rest1
          hplain hr.newObject hcp hnd hpr hwp, newObject_get]
    · rw [extendProp_obj_src hg hsrc, get_set_same ha]
      have hshell := (extendProps_grows ps (t.get name) m
        (by simp [JSVal.isContainer, hsrc])).shell
      cases rest with
      | nil =>
        rw [readMerged_obj_nil]
        exact look_of_isPlainObject ((isPlainObject_of_shell hshell).trans hsrc)
      | cons p rest1 =>
        rw [readMerged_obj_src hsrc]
        show (getPath ((extendProps (t.get name) ps m).1.get p) rest1).look = _
        rw [extendProps_reads ps (t.get name) m base p rest1 hsrc (hr.inner name) hcp hnd hpr hwp]
  | .arr j es, t, name, m, base, rest, ht, ha, hn, hr, hc, hw => by
    have hg := skipped_eq_false ht hn hr hc
    have hwe : wellFormedElems es = true := by simpa [wellFormed] using hw
    have hce : ∀ i ∈ allIdsElems es, i < base := fun i hi =>
      hc i (by simp [allIds, hi])
    cases hsrc : (t.get name).isArray
    · rw [extendProp_arr_new hg hsrc, get_set_same ha]
      have harr : m.newArray.1.isArray = true := rfl
      have hshell := (extendElems_grows es m.newArray.1 0 m.newArray.2
        (by simp [JSVal.isContainer, harr])).shell
      have harr1 := (isArray_of_shell hshell).trans harr
      cases rest with
      | nil =>
        rw [readMerged_arr_nil]
        exact look_of_isArray harr1
      | cons p rest1 =>
        cases p with
        | name s =>
          rw [readMerged_arr_name]
          show (getPath ((extendElems m.newArray.1 es 0 m.newArray.2).1.get (.name s)) rest1).look = _
          rw [get_name_of_isArray harr1, getPath_undefined]
          rfl
        | index n =>
          rw [readMerged_arr_new hsrc]
          show (getPath ((extendElems m.newArray.1 es 0 m.newArray.2).1.get (.index n)) rest1).look = _
          rw [extendElems_reads es m.newArray.1 0 m.newArray.2 base n rest1
            harr hr.newArray hce hwe, newArray_get]
          simp
    · rw [extendProp_arr_src hg hsrc, get_set_same ha]
      have hshell := (extendElems_grows es (t.get name) 0 m
        (by simp [JSVal.isContainer, hsrc])).shell
      have harr1 := (isArray_of_shell hshell).trans hsrc
      cases rest with
      | nil =>
        rw [readMerged_arr_nil]
        exact look_of_isArray harr1
      | cons p rest1 =>
        cases p with
        | name s =>
          rw [readMerged_arr_name]
          show (getPath ((extendElems (t.get name) es 0 m).1.get (.name s)) rest1).look = _
          rw [get_name_of_isArray harr1, getPath_undefined]
          rfl
        | index n =>
          rw [readMerged_arr_src hsrc]
          show (getPath ((extendElems (t.get name) es 0 m).1.get (.index n)) rest1).look = _
          rw [extendElems_reads es (t.get name) 0 m base n rest1 hsrc (hr.inner name) hce hwe]
          simp
theorem extendProps_reads : ∀ (ps : List (String × JSVal)) (t : JSVal) (m : Mem) (base : Nat)
    (p : PropName) (rest : List PropName), t.isPlainObject = true → Ready base t m →
    (∀ i ∈ allIdsProps ps, i < base) → (ps.map Prod.fst).Nodup →
    "__proto__" ∉ ps.map Prod.fst → wellFormedProps ps = true →
    (getPath ((extendProps t ps m).1.get p) rest).look
      = readMerged (t.get p) ((ps.lookup p.toKey).getD .undefined) rest
  | [], t, m, base, p, rest, _, _, _, _, _, _ => by
    simp [extendProps, readMerged_undefined_right]
  | (k, c) :: r, t, m, base, p, rest, ht, hr, hc, hnd, hpr, hw => by
    have htc : t.isContainer = true := by simp [JSVal.isContainer, ht]
    have g := extendProp_grows c t (.name k) m htc
    have ht1 : (extendProp t (.name k) c m).1.isPlainObject = true := by
      rw [isPlainObject_of_shell g.shell]; exact ht
    have hc1 : ∀ i ∈ allIds c, i < base := fun i hi => hc i (by simp [allIdsProps, hi])
    have hcr : ∀ i ∈ allIdsProps r, i < base := fun i hi => hc i (by simp [allIdsProps, hi])
    have hk1 : k ∉ r.map Prod.fst := (List.nodup_cons.1 hnd).1
    have hndr : (r.map Prod.fst).Nodup := (List.nodup_cons.1 hnd).2
    have hkp : k ≠ "__proto__" := fun h => hpr (by simp [h])
    have hprr : "__proto__" ∉ r.map Prod.fst := fun h => hpr (by simp [h])
    have hw1 : wellFormed c = true := by
      simp only [wellFormedProps, Bool.and_eq_true] at hw; exact hw.1
    have hwr : wellFormedProps r = true := by
      simp only [wellFormedProps, Bool.and_eq_true] at hw; exact hw.2
    have ih := extendProps_reads r (extendProp t (.name k) c m).1 (extendProp t (.name k) c m).2
      base p rest ht1 (hr.grows g) hcr hndr hprr hwr
    show (getPath ((extendProps (extendProp t (.name k) c m).1 r
      (extendProp t (.name k) c m).2).1.get p) rest).look = _
    rw [ih]
    by_cases hk : p.toKey = k
    · have hkey : p.toKey = (PropName.name k).toKey := hk
      rw [hk, lookup_eq_none_of_not_mem hk1]
      simp only [Option.getD_none, readMerged_undefined_right, List.lookup, beq_self_eq_true,
        Option.getD_some]
      rw [get_congr_key ht1 hkey, get_congr_key ht hkey]
      exact extendProp_reads c t (.name k) m base rest htc (Or.inl ht)
        (by simpa using hkp) hr hc1 hw1
    · have hne : (p.toKey == k) = false := by simpa using hk
      rw [extendProp_get_key ht (.name k) p c m hk]
      simp [List.lookup, hne]
theorem extendElems_reads : ∀ (es : List JSVal) (t : JSVal) (i0 : Nat) (m : Mem) (base : Nat)
    (n : Nat) (rest : List PropName), t.isArray = true → Ready base t m →
    (∀ i ∈ allIdsElems es, i < base) → wellFormedElems es = true →
    (getPath ((extendElems t es i0 m).1.get (.index n)) rest).look
      = readMerged (t.get (.index n))
          (if i0 ≤ n then es.getD (n - i0) .undefined else .undefined) rest
  | [], t, i0, m, base, n, rest, _, _, _, _ => by
    simp [extendElems, readMerged_undefined_right]
  | c :: r, t, i0, m, base, n, rest, ht, hr, hc, hw => by
    have htc : t.isContainer = true := by simp [JSVal.isContainer, ht]
    have g := extendProp_grows c t (.index i0) m htc
    have ht1 : (extendProp t (.index i0) c m).1.isArray = true := by
      rw [isArray_of_shell g.shell]; exact ht
    have hc1 : ∀ i ∈ allIds c, i < base := fun i hi => hc i (by simp [allIdsElems, hi])
    have hcr : ∀ i ∈ allIdsElems r, i < base := fun i hi => hc i (by simp [allIdsElems, hi])
    have hw1 : wellFormed c = true := by
      simp only [wellFormedElems, Bool.and_eq_true] at hw; exact hw.1
    have hwr : wellFormedElems r = true := by
      simp only [wellFormedElems, Bool.and_eq_true] at hw; exact hw.2
    have ih := extendElems_reads r (extendProp t (.index i0) c m).1 (i0 + 1)
      (extendProp t (.index i0) c m).2 base n rest ht1 (hr.grows g) hcr hwr
    show (getPath ((extendElems (extendProp t (.index i0) c m).1 r (i0 + 1)
      (extendProp t (.index i0) c m).2).1.get (.index n)) rest).look = _
    rw [ih]
    by_cases hk : n = i0
    · subst hk
      have h1 : ¬ (n + 1 ≤ n) := by omega
      simp only [h1, if_false, readMerged_undefined_right, Nat.le_refl, if_true, Nat.sub_self,
        List.getD_cons_zero]
      exact extendProp_reads c t (.index n) m base rest htc (Or.inr ⟨ht, n, rfl⟩)
        (by simp) hr hc1 hw1
    · rw [extendProp_get_index ht i0 n c m hk]
      by_cases hlt : i0 ≤ n
      · have h1 : i0 + 1 ≤ n := by omega
        have h2 : n - i0 = (n - (i0 + 1)) + 1 := by omega
        simp only [h1, hlt, if_true]
        rw [h2, List.getD_cons_succ]
      · have h1 : ¬ (i0 + 1 ≤ n) := by omega
        simp only [h1, hlt, if_false]
end

/-! ### The settings of an instance -/

theorem mkSettings_eq (d o : JSVal) (m : Mem) :
    mkSettings d o m =
      extendInto (extendInto m.newObject.1 d m.newObject.2).1 o
        (extendInto m.newObject.1 d m.newObject.2).2 := rfl

theorem ready_newObject (m : Mem) : Ready m.next m.newObject.1 m.newObject.2 := by
  refine ⟨?_, Nat.le_succ _⟩
  intro i hi
  have e : i = m.next := by simpa [Mem.newObject, containerIds, containerIdsProps] using hi
  rw [e]

/-- Merging a plain object into a new `{}` gives a copy: it shows the same as
the original at every path. -/
theorem clone_agrees (di : Nat) (dps : List (String × JSVal)) (m : Mem)
    (hw : wellFormed (.obj di dps) = true) (hb : ∀ i ∈ allIds (.obj di dps), i < m.next)
    (p : PropName) :
    Agree ((extendInto m.newObject.1 (.obj di dps) m.newObject.2).1.get p)
      ((JSVal.obj di dps).get p) := by
  intro path
  obtain ⟨hnd, hpr, hwp⟩ := wellFormed_obj hw
  have hcp : ∀ i ∈ allIdsProps dps, i < m.next := fun i hi => hb i (by simp [allIds, hi])
  show (getPath ((extendProps m.newObject.1 dps m.newObject.2).1.get p) path).look = _
  rw [extendProps_reads dps m.newObject.1 m.newObject.2 m.next p path rfl (ready_newObject m)
    hcp hnd hpr hwp, newObject_get, readMerged_undefined_left]
  rfl

/-- The settings against the merge rule: what is read at any path of the
settings is what the rule gives for the defaults and the options. -/
theorem mkSettings_reads (di : Nat) (dps : List (String × JSVal)) (oi : Nat)
    (ops : List (String × JSVal)) (m : Mem)
    (hwd : wellFormed (.obj di dps) = true) (hwo : wellFormed (.obj oi ops) = true)
    (hbd : ∀ i ∈ allIds (.obj di dps), i < m.next)
    (hbo : ∀ i ∈ allIds (.obj oi ops), i < m.next) (path : List PropName) :
    (getPath (mkSettings (.obj di dps) (.obj oi ops) m).1 path).look
      = readMerged (.obj di dps) (.obj oi ops) path := by
  have hplain0 : m.newObject.1.isPlainObject = true := rfl
  have g1 := extendInto_grows m.newObject.1 (.obj di dps) m.newObject.2
    (by simp [JSVal.isContainer, hplain0])
  have hplain1 := (isPlainObject_of_shell g1.shell).trans hplain0
  have hr1 := (ready_newObject m).grows g1
  have g2 := extendInto_grows (extendInto m.newObject.1 (.obj di dps) m.newObject.2).1
    (.obj oi ops) (extendInto m.newObject.1 (.obj di dps) m.newObject.2).2
    (by simp [JSVal.isContainer, hplain1])
  have hplain2 := (isPlainObject_of_shell g2.shell).trans hplain1
  obtain ⟨hnd, hpr, hwp⟩ := wellFormed_obj hwo
  have hcp : ∀ i ∈ allIdsProps ops, i < m.next := fun i hi => hbo i (by simp [allIds, hi])
  rw [mkSettings_eq]
  cases path with
  | nil =>
    rw [readMerged_obj_nil]
    exact look_of_isPlainObject hplain2
  | cons p rest =>
    rw [readMerged_obj_src (show (JSVal.obj di dps).isPlainObject = true from rfl)]
    show (getPath ((extendProps (extendInto m.newObject.1 (.obj di dps) m.newObject.2).1 ops
      (extendInto m.newObject.1 (.obj di dps) m.newObject.2).2).1.get p) rest).look = _
    rw [extendProps_reads ops _ _ m.next p rest hplain1 hr1 hcp hnd hpr hwp]
    exact readMerged_congr (clone_agrees di dps m hwd hbd p) _ rest

theorem eq_of_look_eq {x c : JSVal} (h : x.look = c) (hc : c.isContainer = false) : x = c := by
  cases x <;> first
    | exact h
    | (subst h; simp [JSVal.look, JSVal.isContainer, isPlainObject, isArray] at hc)

theorem typeOf_look (x : JSVal) : typeOf x.look = typeOf x := by
  cases x <;> rfl

theorem typeOf_mkSettings_get (di : Nat) (dps : List (String × JSVal)) (oi : Nat)
    (ops : List (String × JSVal)) (m : Mem)
    (hwd : wellFormed (.obj di dps) = true) (hwo : wellFormed (.obj oi ops) = true)
    (hbd : ∀ i ∈ allIds (.obj di dps), i < m.next)
    (hbo : ∀ i ∈ allIds (.obj oi ops), i < m.next) (p : PropName) :
    typeOf ((mkSettings (.obj di dps) (.obj oi ops) m).1.get p)
      = typeOf (effective ((JSVal.obj di dps).get p) ((JSVal.obj oi ops).get p)) := by
  have h := mkSettings_reads di dps oi ops m hwd hwo hbd hbo [p]
  simp only [getPath] at h
  rw [← typeOf_look, h, readMerged_obj_src (show (JSVal.obj di dps).isPlainObject = true from rfl)]
  simp only [readMerged, effective, JSVal.get]
  split <;> exact typeOf_look _

/-! ## Properties of the construction of instances -/

theorem quietHost_wellBehaved : WellBehaved quietHost :=
  fun _ _ w => ⟨[], by simp [quietHost]⟩

theorem dispatcher_object (host : Host) (this : List Nat) (ci : Nat)
    (cps : List (String × JSVal)) (args : List JSVal) (w : World) :
    jQueryPlugin host this (.obj ci cps :: args) w =
      match eachNew host (.obj ci cps) this w with
      | .throw e w1 => .throw e w1
      | .normal _ w1 => .normal (.selection this) w1 := rfl

/-- C1 (amended): when the functions of the page are well behaved (a
`pluginCallback` returns normally and touches neither its settings nor the
plugin state), a dispatcher call with a configuration object on a selection of
`N` elements ends normally, returns the selection, and has built exactly `N`
new instances, one per selected element in selection order; afterwards each
selected element has cached the deep merge of the defaults with the
configuration (computed at some allocation state), two different elements hold
settings that share no plain object and no array, and the defaults object is the
one it was. -/
theorem dispatcher_builds_instances (host : Host) (hb : WellBehaved host) (this : List Nat)
    (ci : Nat) (cps : List (String × JSVal)) (args : List JSVal) (w : World) :
    ∃ ps w1,
      jQueryPlugin host this (.obj ci cps :: args) w = .normal (.selection this) w1 ∧
      w1.instances = w.instances ++ ps ∧
      ps.length = this.length ∧
      ps.map Plugin.element = this ∧
      w1.defaults = w.defaults ∧
      (∀ e ∈ this, ∃ m, w.mem.next ≤ m.next ∧
        w1.dataOf e = (mkSettings w.defaults (.obj ci cps) m).1) ∧
      (∀ e1 ∈ this, ∀ e2 ∈ this, e1 ≠ e2 →
        ∀ i ∈ containerIds (w1.dataOf e1), i ∉ containerIds (w1.dataOf e2)) := by
  obtain ⟨ps, w1, hrun, hinst, hmap, hdef, -, hall, hpair, hdata, -⟩ :=
    eachNew_spec host hb (.obj ci cps) this w
  refine ⟨ps, w1, ?_, hinst, ?_, hmap, hdef, ?_, ?_⟩
  · rw [dispatcher_object, hrun]
  · rw [← hmap, List.length_map]
  · intro e he
    obtain ⟨p, hp, -, hpd⟩ := hdata e he
    obtain ⟨m, hm, hset, -, -⟩ := hall p hp
    exact ⟨m, hm, by rw [hpd, hset]⟩
  · intro e1 he1 e2 he2 hne
    obtain ⟨p1, hp1, hpe1, hpd1⟩ := hdata e1 he1
    obtain ⟨p2, hp2, hpe2, hpd2⟩ := hdata e2 he2
    have hsym : Symmetric (fun p q : Plugin =>
        ∀ i ∈ containerIds p.settings, i ∉ containerIds q.settings) :=
      fun p q h i hi hi2 => h i hi2 hi
    have hpne : p1 ≠ p2 := fun h => hne (by rw [← hpe1, ← hpe2, h])
    rw [hpd1, hpd2]
    exact hpair.forall hsym hp1 hp2 hpne

/-- Witness of C1: two elements, a configuration holding an array, and
functions that do nothing. -/
theorem dispatcher_builds_instances_witness :
    WellBehaved quietHost ∧
    ∃ ps w1,
      jQueryPlugin quietHost [7, 8] (.obj 1 [("customParam", .arr 2 [.num 1])] :: []) (page 3)
        = .normal (.selection [7, 8]) w1 ∧
      w1.instances = (page 3).instances ++ ps ∧
      ps.length = [7, 8].length ∧
      ps.map Plugin.element = [7, 8] ∧
      w1.defaults = (page 3).defaults ∧
      (∀ e ∈ [7, 8], ∃ m, (page 3).mem.next ≤ m.next ∧
        w1.dataOf e
          = (mkSettings (page 3).defaults (.obj 1 [("customParam", .arr 2 [.num 1])]) m).1) ∧
      (∀ e1 ∈ [7, 8], ∀ e2 ∈ [7, 8], e1 ≠ e2 →
        ∀ i ∈ containerIds (w1.dataOf e1), i ∉ containerIds (w1.dataOf e2)) :=
  ⟨quietHost_wellBehaved,
    dispatcher_builds_instances quietHost quietHost_wellBehaved [7, 8] 1
      [("customParam", .arr 2 [.num 1])] [] (page 3)⟩

/-- C1 (counterexample): with a configuration whose `pluginCallback` throws, the
dispatcher call on two elements throws; no instance was completed and the first
element has nothing cached. -/
theorem dispatcher_callback_throws :
    jQueryPlugin (fun _ _ v => .throw "Error" v) [7, 8]
        [.obj 1 [("pluginCallback", .func 2)]] (page 3)
      = .throw "Error"
          { defaults := shippedDefaults 0, data := [], console := [], instances := [],
            mem := { next := 4, written := [3, 3] } } ∧
    (jQueryPlugin (fun _ _ v => .throw "Error" v) [7, 8]
        [.obj 1 [("pluginCallback", .func 2)]] (page 3)).world.instances = [] ∧
    (jQueryPlugin (fun _ _ v => .throw "Error" v) [7, 8]
        [.obj 1 [("pluginCallback", .func 2)]] (page 3)).world.dataOf 7 = .undefined := by
  decide

/-- C2 (amended): when the functions of the page are well behaved, initialising
one element with a configuration object and then calling `getInstance` on it
returns the settings of the element, which are the deep merge of the defaults
with the configuration; on an element with no cached data `getInstance` returns
`undefined`, and it still does after other elements were initialised. -/
theorem getInstance_after_init (host : Host) (hb : WellBehaved host) (e : Nat)
    (ci : Nat) (cps : List (String × JSVal)) (w : World) :
    (∃ w1,
      jQueryPlugin host [e] [.obj ci cps] w = .normal (.selection [e]) w1 ∧
      jQueryPlugin host [e] [.str "getInstance"] w1
        = .normal (.value (mkSettings w.defaults (.obj ci cps) w.mem).1) w1) ∧
    (∀ v : World, v.data.lookup e = none →
      jQueryPlugin host [e] [.str "getInstance"] v = .normal (.value .undefined) v) ∧
    ∀ others : List Nat, e ∉ others → w.data.lookup e = none →
      ∃ w2, jQueryPlugin host others [.obj ci cps] w = .normal (.selection others) w2 ∧
        jQueryPlugin host [e] [.str "getInstance"] w2 = .normal (.value .undefined) w2 := by
  refine ⟨?_, ?_, ?_⟩
  · obtain ⟨out, hnew⟩ := new_spec host hb e (.obj ci cps) w
    refine ⟨(Plugin.new host e (.obj ci cps) w).world, ?_, ?_⟩
    · rw [dispatcher_object]
      simp only [eachNew, hnew, Completion.world]
    · show Completion.normal (Ret.value (World.jqData _ [e])) _ = _
      rw [hnew]
      simp [Completion.world, World.jqData, World.dataOf, lookup_setData]
  · intro v hv
    show Completion.normal (Ret.value (World.jqData v [e])) v = _
    simp [World.jqData, World.dataOf, hv]
  · intro others hne hv
    obtain ⟨ps, w2, hrun, -, -, -, -, -, -, -, hframe⟩ :=
      eachNew_spec host hb (.obj ci cps) others w
    refine ⟨w2, by rw [dispatcher_object, hrun], ?_⟩
    show Completion.normal (Ret.value (World.jqData w2 [e])) w2 = _
    have h : w2.dataOf e = .undefined := by
      rw [hframe e hne]; simp [World.dataOf, hv]
    simp only [World.jqData, h]

/-- Witness of C2: one element and functions that do nothing. -/
theorem getInstance_after_init_witness :
    WellBehaved quietHost ∧
    (∃ w1,
      jQueryPlugin quietHost [7] [.obj 1 [("customParam", .str "customValue")]] (page 2)
        = .normal (.selection [7]) w1 ∧
      jQueryPlugin quietHost [7] [.str "getInstance"] w1
        = .normal (.value (mkSettings (page 2).defaults
            (.obj 1 [("customParam", .str "customValue")]) (page 2).mem).1) w1) ∧
    (∀ v : World, v.data.lookup 7 = none →
      jQueryPlugin quietHost [7] [.str "getInstance"] v = .normal (.value .undefined) v) ∧
    ∀ others : List Nat, 7 ∉ others → (page 2).data.lookup 7 = none →
      ∃ w2, jQueryPlugin quietHost others [.obj 1 [("customParam", .str "customValue")]] (page 2)
          = .normal (.selection others) w2 ∧
        jQueryPlugin quietHost [7] [.str "getInstance"] w2 = .normal (.value .undefined) w2 :=
  ⟨quietHost_wellBehaved,
    getInstance_after_init quietHost quietHost_wellBehaved 7 1
      [("customParam", .str "customValue")] (page 2)⟩

/-- C2 (counterexample): with a `pluginCallback` that assigns to a property of
its receiver (the settings), `getInstance` after the initialisation returns
settings whose `pluginParam` is `'changed'`, whereas the deep merge of the
defaults with the configuration has `pluginParam` equal to `'paramValue'`. -/
theorem getInstance_after_mutating_callback :
    jQueryPlugin (fun _ self v => .normal (self.set (.name "pluginParam") (.str "changed")) v)
        [7] [.str "getInstance"]
        (jQueryPlugin
          (fun _ self v => .normal (self.set (.name "pluginParam") (.str "changed")) v)
          [7] [.obj 1 [("pluginCallback", .func 2)]] (page 3)).world
      = .normal
          (.value (.obj 3 [("pluginParam", .str "changed"), ("pluginCallback", .func 2)]))
          (jQueryPlugin
            (fun _ self v => .normal (self.set (.name "pluginParam") (.str "changed")) v)
            [7] [.obj 1 [("pluginCallback", .func 2)]] (page 3)).world ∧
    (mkSettings (page 3).defaults (.obj 1 [("pluginCallback", .func 2)]) (page 3).mem).1
      = .obj 3 [("pluginParam", .str "paramValue"), ("pluginCallback", .func 2)] := by
  decide

/-- C7 (amended): when the functions of the page are well behaved, constructing
an instance for a configuration object ends normally, and its buffer is
decided by the `pluginParam` that wins the merge (the one of the
configuration unless it is `undefined` or absent, else the one of the shipped
or current defaults): if it is not a string the buffer holds exactly one entry,
of type `error` and content `missing pluginParam`; if it is a string the buffer
is empty. -/
theorem new_buffer (host : Host) (hb : WellBehaved host) (element : Nat)
    (ci : Nat) (cps : List (String × JSVal)) (w : World) (di : Nat)
    (dps : List (String × JSVal)) (hd : w.defaults = .obj di dps)
    (hwd : wellFormed (.obj di dps) = true) (hwo : wellFormed (.obj ci cps) = true)
    (hbd : ∀ i ∈ allIds (.obj di dps), i < w.mem.next)
    (hbo : ∀ i ∈ allIds (.obj ci cps), i < w.mem.next) :
    ∃ p w1, Plugin.new host element (.obj ci cps) w = .normal p w1 ∧
      p.messages =
        if typeOf (effective ((JSVal.obj di dps).get (.name "pluginParam"))
            ((JSVal.obj ci cps).get (.name "pluginParam"))) = "string" then []
        else [{ type := "error", content := "missing pluginParam" }] := by
  obtain ⟨out, hnew⟩ := new_spec host hb element (.obj ci cps) w
  refine ⟨_, _, hnew, ?_⟩
  simp only [initMessages, hd]
  rw [typeOf_mkSettings_get di dps ci cps w.mem hwd hwo hbd hbo]

/-- Witness of C7: the shipped defaults and the configuration
`{ pluginParam: 5 }`. -/
theorem new_buffer_witness :
    WellBehaved quietHost ∧ (page 2).defaults = .obj 0 [("pluginParam", .str "paramValue")] ∧
    wellFormed (.obj 0 [("pluginParam", .str "paramValue")]) = true ∧
    wellFormed (.obj 1 [("pluginParam", .num 5)]) = true ∧
    (∀ i ∈ allIds (.obj 0 [("pluginParam", .str "paramValue")]), i < (page 2).mem.next) ∧
    (∀ i ∈ allIds (.obj 1 [("pluginParam", .num 5)]), i < (page 2).mem.next) ∧
    ∃ p w1, Plugin.new quietHost 7 (.obj 1 [("pluginParam", .num 5)]) (page 2) = .normal p w1 ∧
      p.messages =
        if typeOf (effective ((JSVal.obj 0 [("pluginParam", .str "paramValue")]).get
              (.name "pluginParam"))
            ((JSVal.obj 1 [("pluginParam", .num 5)]).get (.name "pluginParam"))) = "string"
        then []
        else [{ type := "error", content := "missing pluginParam" }] :=
  ⟨quietHost_wellBehaved, rfl, by decide, by decide, by decide, by decide,
    new_buffer quietHost quietHost_wellBehaved 7 1 [("pluginParam", .num 5)] (page 2) 0
      [("pluginParam", .str "paramValue")] rfl (by decide) (by decide) (by decide) (by decide)⟩

/-- C7 (counterexample): against the shipped defaults, a configuration object
without `pluginParam` (here `{}`) gives an instance whose buffer is empty, and
nothing is written to the console. -/
theorem new_without_pluginParam :
    Plugin.new quietHost 7 (.obj 1 []) (page 2)
      = .normal
          { element := 7, settings := .obj 2 [("pluginParam", .str "paramValue")],
            messages := [] }
          { defaults := shippedDefaults 0,
            data := [(7, .obj 2 [("pluginParam", .str "paramValue")])],
            console := [],
            instances := [{ element := 7,
                            settings := .obj 2 [("pluginParam", .str "paramValue")],
                            messages := [] }],
            mem := { next := 3, written := [2] } } := by
  decide

/-! ## Properties named `__proto__` -/

theorem strip_ident (v : JSVal) : (strip v).ident? = v.ident? := by
  cases v <;> rfl

theorem skipped_strip (t : JSVal) (name : PropName) (copy : JSVal) :
    skipped t name (strip copy) = skipped t name copy := by
  simp only [skipped, sameObject, strip_ident]

theorem strip_of_not_container {v : JSVal} (h : v.isContainer = false) : strip v = v := by
  cases v <;> first
    | rfl
    | simp [JSVal.isContainer, isPlainObject, isArray] at h

mutual
theorem extendProp_strip : ∀ (copy t : JSVal) (name : PropName) (m : Mem),
    extendProp t name (strip copy) m = extendProp t name copy m
  | .undefined, _, _, _ => rfl
  | .null, _, _, _ => rfl
  | .bool _, _, _, _ => rfl
  | .num _, _, _, _ => rfl
  | .str _, _, _, _ => rfl
  | .func _, _, _, _ => rfl
  | .other _, _, _, _ => rfl
  | .obj j ps, t, name, m => by
    have hsk := skipped_strip t name (.obj j ps)
    cases hg : skipped t name (.obj j ps)
    · have hg1 : skipped t name (.obj j (stripProps ps)) = false := by
        rw [← hg, ← hsk]; rfl
      show extendProp t name (.obj j (stripProps ps)) m = _
      cases hsrc : (t.get name).isPlainObject
      · rw [extendProp_obj_new hg hsrc, extendProp_obj_new hg1 hsrc,
          extendProps_strip ps m.newObject.1 m.newObject.2]
      · rw [extendProp_obj_src hg hsrc, extendProp_obj_src hg1 hsrc,
          extendProps_strip ps (t.get name) m]
    · have hg1 : skipped t name (strip (.obj j ps)) = true := by rw [hsk, hg]
      rw [extendProp_skip hg, extendProp_skip hg1]
  | .arr j es, t, name, m => by
    have hsk := skipped_strip t name (.arr j es)
    cases hg : skipped t name (.arr j es)
    · have hg1 : skipped t name (.arr j (stripElems es)) = false := by
        rw [← hg, ← hsk]; rfl
      show extendProp t name (.arr j (stripElems es)) m = _
      cases hsrc : (t.get name).isArray
      · rw [extendProp_arr_new hg hsrc, extendProp_arr_new hg1 hsrc,
          extendElems_strip es m.newArray.1 0 m.newArray.2]
      · rw [extendProp_arr_src hg hsrc, extendProp_arr_src hg1 hsrc,
          extendElems_strip es (t.get name) 0 m]
    · have hg1 : skipped t name (strip (.arr j es)) = true := by rw [hsk, hg]
      rw [extendProp_skip hg, extendProp_skip hg1]
theorem extendProps_strip : ∀ (ps : List (String × JSVal)) (t : JSVal) (m : Mem),
    extendProps t (stripProps ps) m = extendProps t ps m
  | [], _, _ => rfl
  | (k, c) :: r, t, m => by
    by_cases hk : k = "__proto__"
    · subst hk
      have hg : skipped t (.name "__proto__") c = true := by simp [skipped]
      show extendProps t (stripProps (("__proto__", c) :: r)) m
        = extendProps (extendProp t (.name "__proto__") c m).1 r
            (extendProp t (.name "__proto__") c m).2
      rw [extendProp_skip hg]
      simp only [stripProps, if_true]
      exact extendProps_strip r t m
    · show extendProps t (stripProps ((k, c) :: r)) m
        = extendProps (extendProp t (.name k) c m).1 r (extendProp t (.name k) c m).2
      simp only [stripProps, hk, if_false]
      show extendProps (extendProp t (.name k) (strip c) m).1 (stripProps r)
        (extendProp t (.name k) (strip c) m).2 = _
      rw [extendProp_strip c t (.name k) m]
      exact extendProps_strip r _ _
theorem extendElems_strip : ∀ (es : List JSVal) (t : JSVal) (i : Nat) (m : Mem),
    extendElems t (stripElems es) i m = extendElems t es i m
  | [], _, _, _ => rfl
  | c :: r, t, i, m => by
    show extendElems (extendProp t (.index i) (strip c) m).1 (stripElems r) (i + 1)
      (extendProp t (.index i) (strip c) m).2
      = extendElems (extendProp t (.index i) c m).1 r (i + 1) (extendProp t (.index i) c m).2
    rw [extendProp_strip c t (.index i) m]
    exact extendElems_strip r _ _ _
end

theorem extendInto_strip (t options : JSVal) (m : Mem) :
    extendInto t (strip options) m = extendInto t options m := by
  cases options with
  | obj j ps => exact extendProps_strip ps t m
  | arr j es => exact extendElems_strip es t 0 m
  | _ => rfl

/-- The merge does not see the properties named `__proto__`. -/
theorem mkSettings_strip (d o : JSVal) (m : Mem) :
    mkSettings (strip d) (strip o) m = mkSettings d o m := by
  rw [mkSettings_eq, mkSettings_eq, extendInto_strip, extendInto_strip]

theorem map_fst_stripProps (ps : List (String × JSVal)) :
    (stripProps ps).map Prod.fst = (ps.map Prod.fst).filter (fun k => decide (k ≠ "__proto__")) := by
  induction ps with
  | nil => rfl
  | cons kv r ih =>
    obtain ⟨k, v⟩ := kv
    by_cases hk : k = "__proto__"
    · simp [stripProps, hk, ih]
    · simp [stripProps, hk, ih]

mutual
theorem wellFormed_strip : ∀ v : JSVal, distinctKeys v = true → wellFormed (strip v) = true
  | .undefined, _ => rfl
  | .null, _ => rfl
  | .bool _, _ => rfl
  | .num _, _ => rfl
  | .str _, _ => rfl
  | .func _, _ => rfl
  | .other _, _ => rfl
  | .obj j ps, h => by
    simp only [distinctKeys, Bool.and_eq_true, decide_eq_true_eq] at h
    simp only [strip, wellFormed, Bool.and_eq_true, decide_eq_true_eq]
    refine ⟨⟨?_, ?_⟩, wellFormedProps_strip ps h.2⟩
    · rw [map_fst_stripProps]; exact h.1.filter _
    · rw [map_fst_stripProps]; simp
  | .arr j es, h => by
    simp only [distinctKeys] at h
    simp only [strip, wellFormed]
    exact wellFormedElems_strip es h
theorem wellFormedProps_strip : ∀ ps : List (String × JSVal),
    distinctKeysProps ps = true → wellFormedProps (stripProps ps) = true
  | [], _ => rfl
  | (k, v) :: r, h => by
    simp only [distinctKeysProps, Bool.and_eq_true] at h
    by_cases hk : k = "__proto__"
    · simp only [stripProps, hk, if_true]
      exact wellFormedProps_strip r h.2
    · simp only [stripProps, hk, if_false, wellFormedProps, Bool.and_eq_true]
      exact ⟨wellFormed_strip v h.1, wellFormedProps_strip r h.2⟩
theorem wellFormedElems_strip : ∀ es : List JSVal,
    distinctKeysElems es = true → wellFormedElems (stripElems es) = true
  | [], _ => rfl
  | v :: r, h => by
    simp only [distinctKeysElems, Bool.and_eq_true] at h
    simp only [stripElems, wellFormedElems, Bool.and_eq_true]
    exact ⟨wellFormed_strip v h.1, wellFormedElems_strip r h.2⟩
end

mutual
theorem allIds_strip : ∀ (v : JSVal) (i : Nat), i ∈ allIds (strip v) → i ∈ allIds v
  | .undefined, _, h => h
  | .null, _, h => h
  | .bool _, _, h => h
  | .num _, _, h => h
  | .str _, _, h => h
  | .func _, _, h => h
  | .other _, _, h => h
  | .obj j ps, i, h => by
    simp only [strip, allIds, List.mem_cons] at h ⊢
    rcases h with h | h
    · exact Or.inl h
    · exact Or.inr (allIdsProps_strip ps i h)
  | .arr j es, i, h => by
    simp only [strip, allIds, List.mem_cons] at h ⊢
    rcases h with h | h
    · exact Or.inl h
    · exact Or.inr (allIdsElems_strip es i h)
theorem allIdsProps_strip : ∀ (ps : List (String × JSVal)) (i : Nat),
    i ∈ allIdsProps (stripProps ps) → i ∈ allIdsProps ps
  | [], _, h => h
  | (k, v) :: r, i, h => by
    by_cases hk : k = "__proto__"
    · simp only [stripProps, hk, if_true] at h
      simp only [allIdsProps, List.mem_append]
      exact Or.inr (allIdsProps_strip r i h)
    · simp only [stripProps, hk, if_false, allIdsProps, List.mem_append] at h ⊢
      rcases h with h | h
      · exact Or.inl (allIds_strip v i h)
      · exact Or.inr (allIdsProps_strip r i h)
theorem allIdsElems_strip : ∀ (es : List JSVal) (i : Nat),
    i ∈ allIdsElems (stripElems es) → i ∈ allIdsElems es
  | [], _, h => h
  | v :: r, i, h => by
    simp only [stripElems, allIdsElems, List.mem_append] at h ⊢
    rcases h with h | h
    · exact Or.inl (allIds_strip v i h)
    · exact Or.inr (allIdsElems_strip r i h)
end

mutual
theorem strip_eq_self : ∀ v : JSVal, wellFormed v = true → strip v = v
  | .undefined, _ => rfl
  | .null, _ => rfl
  | .bool _, _ => rfl
  | .num _, _ => rfl
  | .str _, _ => rfl
  | .func _, _ => rfl
  | .other _, _ => rfl
  | .obj j ps, h => by
    obtain ⟨-, hpr, hwp⟩ := wellFormed_obj h
    simp only [strip]
    rw [stripProps_eq_self ps hpr hwp]
  | .arr j es, h => by
    simp only [wellFormed] at h
    simp only [strip]
    rw [stripElems_eq_self es h]
theorem stripProps_eq_self : ∀ ps : List (String × JSVal),
    "__proto__" ∉ ps.map Prod.fst → wellFormedProps ps = true → stripProps ps = ps
  | [], _, _ => rfl
  | (k, v) :: r, hpr, h => by
    simp only [wellFormedProps, Bool.and_eq_true] at h
    have hk : k ≠ "__proto__" := fun e => hpr (by simp [e])
    have hr : "__proto__" ∉ r.map Prod.fst := fun e => hpr (by simp [e])
    simp only [stripProps, hk, if_false]
    rw [strip_eq_self v h.1, stripProps_eq_self r hr h.2]
theorem stripElems_eq_self : ∀ es : List JSVal,
    wellFormedElems es = true → stripElems es = es
  | [], _ => rfl
  | v :: r, h => by
    simp only [wellFormedElems, Bool.and_eq_true] at h
    simp only [stripElems]
    rw [strip_eq_self v h.1, stripElems_eq_self r h.2]
end

theorem lookup_stripProps (ps : List (String × JSVal)) (k : String) (hk : k ≠ "__proto__") :
    (stripProps ps).lookup k = (ps.lookup k).map strip := by
  induction ps with
  | nil => rfl
  | cons kv r ih =>
    obtain ⟨k1, v⟩ := kv
    by_cases h1 : k1 = "__proto__"
    · subst h1
      have hne : (k == "__proto__") = false := by simpa using hk
      simp [stripProps, ih, List.lookup, hne]
    · by_cases h2 : k = k1
      · subst h2
        simp [stripProps, h1, List.lookup]
      · have hne : (k == k1) = false := by simpa using h2
        simp [stripProps, h1, List.lookup, hne, ih]

/-- Away from the name `__proto__`, reading a property of the stripped object
gives the stripped property. -/
theorem strip_get (di : Nat) (dps : List (String × JSVal)) (j : String)
    (hj : j ≠ "__proto__") :
    (strip (.obj di dps)).get (.name j) = strip ((JSVal.obj di dps).get (.name j)) := by
  simp only [strip, JSVal.get, PropName.toKey, lookup_stripProps dps j hj]
  cases dps.lookup j <;> rfl

/-! ## Properties of the option merge -/

theorem mkSettings_single (d : JSVal) (oi : Nat) (k : String) (v : JSVal) (m : Mem) :
    mkSettings d (.obj oi [(k, v)]) m =
      extendProp (extendInto m.newObject.1 d m.newObject.2).1 (.name k) v
        (extendInto m.newObject.1 d m.newObject.2).2 := rfl

/-- C3 (amended): merging the one-key override `{k: v}` over defaults `d` whose
objects all exist already gives settings that, at every key other than `k`,
show the same as `d` without its own properties named `__proto__` (`strip d`),
whatever chain of property names and indices one reads: an own property named
`__proto__`, of `d` or of a mapping nested in `d`, is not copied, and everything
else is, so that at a key other than `__proto__` the settings show the stripped
value `d` has there, and `d` itself when it holds no such property.  Every
assignment the merge performs goes into an object that is not part of `d`, and
the settings share no plain object and no array with `d` (so neither the merge
nor a later change of the settings touches `d` or its nested mappings). -/
theorem single_key_override (di : Nat) (dps : List (String × JSVal)) (oi : Nat) (k : String)
    (v : JSVal) (m : Mem) (hk : distinctKeys (.obj di dps) = true)
    (hb : ∀ i ∈ allIds (.obj di dps), i < m.next) :
    (∀ j, j ≠ k →
      Agree ((mkSettings (.obj di dps) (.obj oi [(k, v)]) m).1.get (.name j))
        ((strip (.obj di dps)).get (.name j))) ∧
    (∀ j, j ≠ "__proto__" →
      (strip (.obj di dps)).get (.name j) = strip ((JSVal.obj di dps).get (.name j))) ∧
    (wellFormed (.obj di dps) = true → strip (.obj di dps) = .obj di dps) ∧
    (∃ ws, (mkSettings (.obj di dps) (.obj oi [(k, v)]) m).2.written = m.written ++ ws ∧
      ∀ i ∈ ws, i ∉ allIds (.obj di dps)) ∧
    (∀ i ∈ containerIds (mkSettings (.obj di dps) (.obj oi [(k, v)]) m).1,
      i ∉ allIds (.obj di dps)) := by
  obtain ⟨-, -, hids, ws, hws, hfresh⟩ :=
    mkSettings_fresh (.obj di dps) (.obj oi [(k, v)]) m
  refine ⟨?_, fun j hj => strip_get di dps j hj, strip_eq_self _, ⟨ws, hws, ?_⟩, ?_⟩
  · intro j hj
    have hplain0 : m.newObject.1.isPlainObject = true := rfl
    have g1 := extendInto_grows m.newObject.1 (.obj di dps) m.newObject.2
      (by simp [JSVal.isContainer, hplain0])
    have hplain1 := (isPlainObject_of_shell g1.shell).trans hplain0
    rw [mkSettings_single, extendProp_get_key hplain1 (.name k) (.name j) v _
      (by simpa [PropName.toKey] using hj), ← extendInto_strip]
    exact clone_agrees di (stripProps dps) m (wellFormed_strip _ hk)
      (fun i hi => hb i (allIds_strip (.obj di dps) i hi)) (.name j)
  · intro i hi hmem
    have h1 := (hfresh i hi).1
    have h2 := hb i hmem
    omega
  · intro i hi hmem
    have h1 := (hids i hi).1
    have h2 := hb i hmem
    omega

/-- Witness of C3: defaults with a nested object holding an array and a
property named `__proto__`, and the override `{ pluginParam: 5 }`. -/
theorem single_key_override_witness :
    distinctKeys (.obj 0 [("pluginParam", .str "paramValue"),
      ("nested", .obj 1 [("list", .arr 2 [.num 1, .num 2]), ("__proto__", .num 7)])]) = true ∧
    (∀ i ∈ allIds (.obj 0 [("pluginParam", .str "paramValue"),
      ("nested", .obj 1 [("list", .arr 2 [.num 1, .num 2]), ("__proto__", .num 7)])]),
        i < (Mem.mk 4 []).next) ∧
    (∀ j, j ≠ "pluginParam" →
      Agree ((mkSettings (.obj 0 [("pluginParam", .str "paramValue"),
          ("nested", .obj 1 [("list", .arr 2 [.num 1, .num 2]), ("__proto__", .num 7)])])
          (.obj 3 [("pluginParam", .num 5)]) (Mem.mk 4 [])).1.get (.name j))
        ((strip (.obj 0 [("pluginParam", .str "paramValue"),
          ("nested", .obj 1 [("list", .arr 2 [.num 1, .num 2]), ("__proto__", .num 7)])])).get
          (.name j))) ∧
    (∃ ws, (mkSettings (.obj 0 [("pluginParam", .str "paramValue"),
          ("nested", .obj 1 [("list", .arr 2 [.num 1, .num 2]), ("__proto__", .num 7)])])
          (.obj 3 [("pluginParam", .num 5)]) (Mem.mk 4 [])).2.written = (Mem.mk 4 []).written ++ ws ∧
      ∀ i ∈ ws, i ∉ allIds (.obj 0 [("pluginParam", .str "paramValue"),
          ("nested", .obj 1 [("list", .arr 2 [.num 1, .num 2]), ("__proto__", .num 7)])])) :=
  ⟨by decide, by decide,
    (single_key_override 0 [("pluginParam", .str "paramValue"),
      ("nested", .obj 1 [("list", .arr 2 [.num 1, .num 2]), ("__proto__", .num 7)])] 3
      "pluginParam" (.num 5) (Mem.mk 4 []) (by decide) (by decide)).1,
    (single_key_override 0 [("pluginParam", .str "paramValue"),
      ("nested", .obj 1 [("list", .arr 2 [.num 1, .num 2]), ("__proto__", .num 7)])] 3
      "pluginParam" (.num 5) (Mem.mk 4 []) (by decide) (by decide)).2.2.2.1⟩

/-- C3 (counterexample): over the defaults `{"__proto__": 1, x: 2}` the override
`{k: 5}` gives the settings `{x: 2, k: 5}`: at `__proto__`, a key other than
`k`, the defaults hold `1` and the settings hold no property. -/
theorem proto_key_not_copied :
    (mkSettings (.obj 0 [("__proto__", .num 1), ("x", .num 2)]) (.obj 1 [("k", .num 5)])
        (Mem.mk 2 [])).1
      = .obj 2 [("x", .num 2), ("k", .num 5)] ∧
    "__proto__" ≠ "k" ∧
    (JSVal.obj 0 [("__proto__", .num 1), ("x", .num 2)]).get (.name "__proto__") = .num 1 ∧
    (mkSettings (.obj 0 [("__proto__", .num 1), ("x", .num 2)]) (.obj 1 [("k", .num 5)])
        (Mem.mk 2 [])).1.get (.name "__proto__") = .undefined ∧
    ¬ Agree ((mkSettings (.obj 0 [("__proto__", .num 1), ("x", .num 2)])
        (.obj 1 [("k", .num 5)]) (Mem.mk 2 [])).1.get (.name "__proto__"))
      ((JSVal.obj 0 [("__proto__", .num 1), ("x", .num 2)]).get (.name "__proto__")) := by
  refine ⟨by decide, by decide, by decide, by decide, ?_⟩
  intro h
  have h0 := h []
  revert h0
  decide

theorem isArray_of_look {x : JSVal} (h : x.look = .arr 0 []) : x.isArray = true := by
  cases x <;> simp_all [JSVal.look, isArray]

/-- The settings against the merge rule, for objects without a property named
`__proto__`. -/
theorem merge_rule_wellFormed (di : Nat) (dps : List (String × JSVal)) (oi : Nat)
    (ops : List (String × JSVal)) (m : Mem) (s : JSVal)
    (hs : s = (mkSettings (.obj di dps) (.obj oi ops) m).1)
    (hwd : wellFormed (.obj di dps) = true) (hwo : wellFormed (.obj oi ops) = true)
    (hbd : ∀ i ∈ allIds (.obj di dps), i < m.next)
    (hbo : ∀ i ∈ allIds (.obj oi ops), i < m.next) :
    (∀ path, (getPath s path).look = readMerged (.obj di dps) (.obj oi ops) path) ∧
    (∀ k c, ops.lookup k = some c → c.isContainer = false → c ≠ .undefined →
      s.get (.name k) = c) ∧
    (∀ k, (ops.lookup k).getD .undefined = .undefined →
      Agree (s.get (.name k)) ((JSVal.obj di dps).get (.name k))) ∧
    (∀ k oj oes, ops.lookup k = some (.arr oj oes) →
      (s.get (.name k)).isArray = true ∧
      ∀ n, oes.getD n .undefined = .undefined →
        ((JSVal.obj di dps).get (.name k)).isArray = true →
        Agree ((s.get (.name k)).get (.index n))
          (((JSVal.obj di dps).get (.name k)).get (.index n))) := by
  have main : ∀ path, (getPath s path).look = readMerged (.obj di dps) (.obj oi ops) path := by
    intro path; rw [hs]; exact mkSettings_reads di dps oi ops m hwd hwo hbd hbo path
  have hsrc : (JSVal.obj di dps).isPlainObject = true := rfl
  refine ⟨main, ?_, ?_, ?_⟩
  · intro k c hk hc hu
    have h := main [.name k]
    rw [readMerged_obj_src hsrc] at h
    simp only [getPath, PropName.toKey, hk, Option.getD_some] at h
    rw [readMerged_scalar _ hc hu] at h
    simp only [getPath] at h
    rw [look_of_not_container hc] at h
    exact eq_of_look_eq h hc
  · intro k hk path
    have h := main (.name k :: path)
    rw [readMerged_obj_src hsrc] at h
    simp only [getPath, PropName.toKey, hk] at h
    rw [readMerged_undefined_right] at h
    exact h
  · intro k oj oes hk
    constructor
    · have h := main [.name k]
      rw [readMerged_obj_src hsrc] at h
      simp only [getPath, PropName.toKey, hk, Option.getD_some] at h
      rw [readMerged_arr_nil] at h
      exact isArray_of_look h
    · intro n hn hda path
      have h := main (.name k :: .index n :: path)
      rw [readMerged_obj_src hsrc] at h
      simp only [getPath, PropName.toKey, hk, Option.getD_some] at h
      rw [readMerged_arr_src hda, hn, readMerged_undefined_right] at h
      exact h

theorem lookup_stripProps_proto (ps : List (String × JSVal)) :
    (stripProps ps).lookup "__proto__" = none := by
  apply lookup_eq_none_of_not_mem
  rw [map_fst_stripProps]
  simp

theorem getD_stripElems (es : List JSVal) (n : Nat) :
    (stripElems es).getD n .undefined = strip (es.getD n .undefined) := by
  induction es generalizing n with
  | nil => rfl
  | cons v r ih =>
    cases n with
    | zero => rfl
    | succ n =>
      show (stripElems r).getD n .undefined = strip (r.getD n .undefined)
      exact ih n

theorem isArray_strip (v : JSVal) : (strip v).isArray = v.isArray := by
  cases v <;> rfl

/-- C4 (amended): for plain objects `d` (defaults) and `o` (options) whose
objects all exist already, the settings `s` of the constructor follow the merge
rule `readMerged`, at every path, on `d` and `o` without their own properties
named `__proto__` (`strip`), which the merge never copies, at any depth: `s`
holds nothing at `__proto__`; keys absent from `o` or `undefined` in it keep the
value of `d`, nested plain objects are merged recursively, scalars other than
`undefined` (and functions, non-plain objects) replace the value of `d`, and an
array of `o` is merged index by index into the array `d` has at that key.  In
particular, at a key other than `__proto__`, a scalar of `o` is the value of `s`
exactly, a key that `o` leaves `undefined` shows in `s` what it shows in `d`,
and where `o` holds an array, `s` holds an array in which every index that the
array of `o` leaves `undefined` (or does not reach) shows what the array of `d`
shows there.  An object without a property named `__proto__` is its own
stripped form. -/
theorem settings_follow_merge_rule (di : Nat) (dps : List (String × JSVal)) (oi : Nat)
    (ops : List (String × JSVal)) (m : Mem) (s : JSVal)
    (hs : s = (mkSettings (.obj di dps) (.obj oi ops) m).1)
    (hkd : distinctKeys (.obj di dps) = true) (hko : distinctKeys (.obj oi ops) = true)
    (hbd : ∀ i ∈ allIds (.obj di dps), i < m.next)
    (hbo : ∀ i ∈ allIds (.obj oi ops), i < m.next) :
    (∀ path, (getPath s path).look
      = readMerged (strip (.obj di dps)) (strip (.obj oi ops)) path) ∧
    s.get (.name "__proto__") = .undefined ∧
    (∀ k c, k ≠ "__proto__" → ops.lookup k = some c → c.isContainer = false →
      c ≠ .undefined → s.get (.name k) = c) ∧
    (∀ k, k ≠ "__proto__" → (ops.lookup k).getD .undefined = .undefined →
      Agree (s.get (.name k)) (strip ((JSVal.obj di dps).get (.name k)))) ∧
    (∀ k oj oes, k ≠ "__proto__" → ops.lookup k = some (.arr oj oes) →
      (s.get (.name k)).isArray = true ∧
      ∀ n, oes.getD n .undefined = .undefined →
        ((JSVal.obj di dps).get (.name k)).isArray = true →
        Agree ((s.get (.name k)).get (.index n))
          ((strip ((JSVal.obj di dps).get (.name k))).get (.index n))) ∧
    (wellFormed (.obj di dps) = true → strip (.obj di dps) = .obj di dps) ∧
    (wellFormed (.obj oi ops) = true → strip (.obj oi ops) = .obj oi ops) := by
  have hs1 : s = (mkSettings (.obj di (stripProps dps)) (.obj oi (stripProps ops)) m).1 := by
    rw [hs, ← mkSettings_strip]; rfl
  obtain ⟨main, hscalar, hkeep, harr⟩ :=
    merge_rule_wellFormed di (stripProps dps) oi (stripProps ops) m s hs1
      (wellFormed_strip _ hkd) (wellFormed_strip _ hko)
      (fun i hi => hbd i (allIds_strip (.obj di dps) i hi))
      (fun i hi => hbo i (allIds_strip (.obj oi ops) i hi))
  refine ⟨main, ?_, ?_, ?_, ?_, strip_eq_self _, strip_eq_self _⟩
  · have h := hkeep "__proto__" (by rw [lookup_stripProps_proto]; rfl) []
    simp only [getPath, JSVal.get, PropName.toKey, lookup_stripProps_proto,
      Option.getD_none] at h
    exact eq_of_look_eq h rfl
  · intro k c hk hl hc hu
    apply hscalar k c _ hc hu
    rw [lookup_stripProps ops k hk, hl, Option.map_some', strip_of_not_container hc]
  · intro k hk hl
    have h := hkeep k (by
      rw [lookup_stripProps ops k hk]
      cases hlk : ops.lookup k with
      | none => rfl
      | some c =>
        rw [hlk] at hl
        simp only [Option.getD_some] at hl
        rw [hl]; rfl)
    rw [← strip_get di dps k hk]
    exact h
  · intro k oj oes hk hl
    obtain ⟨h1, h2⟩ := harr k oj (stripElems oes) (by
      rw [lookup_stripProps ops k hk, hl]; rfl)
    refine ⟨h1, ?_⟩
    intro n hn hda
    rw [← strip_get di dps k hk]
    apply h2 n
    · rw [getD_stripElems, hn]; rfl
    · show ((strip (.obj di dps)).get (.name k)).isArray = true
      rw [strip_get di dps k hk, isArray_strip]; exact hda

/-- Witness of C4: `{a: [9], b: 'x', c: undefined, "__proto__": 7}` over
`{a: [1, 2, 3], b: 4}` gives `{a: [9, 2, 3], b: 'x'}`. -/
theorem settings_follow_merge_rule_witness :
    (JSVal.obj 6 [("a", .arr 7 [.num 9, .num 2, .num 3]), ("b", .str "x")])
      = (mkSettings (.obj 0 [("a", .arr 1 [.num 1, .num 2, .num 3]), ("b", .num 4)])
          (.obj 2 [("a", .arr 3 [.num 9]), ("b", .str "x"), ("c", .undefined),
            ("__proto__", .num 7)])
          (Mem.mk 6 [])).1 ∧
    distinctKeys (.obj 0 [("a", .arr 1 [.num 1, .num 2, .num 3]), ("b", .num 4)]) = true ∧
    distinctKeys (.obj 2 [("a", .arr 3 [.num 9]), ("b", .str "x"), ("c", .undefined),
      ("__proto__", .num 7)]) = true ∧
    (∀ i ∈ allIds (.obj 0 [("a", .arr 1 [.num 1, .num 2, .num 3]), ("b", .num 4)]),
      i < (Mem.mk 6 []).next) ∧
    (∀ i ∈ allIds (.obj 2 [("a", .arr 3 [.num 9]), ("b", .str "x"), ("c", .undefined),
      ("__proto__", .num 7)]), i < (Mem.mk 6 []).next) ∧
    (∀ path, (getPath (.obj 6 [("a", .arr 7 [.num 9, .num 2, .num 3]), ("b", .str "x")])
        path).look
      = readMerged (strip (.obj 0 [("a", .arr 1 [.num 1, .num 2, .num 3]), ("b", .num 4)]))
          (strip (.obj 2 [("a", .arr 3 [.num 9]), ("b", .str "x"), ("c", .undefined),
            ("__proto__", .num 7)])) path) :=
  ⟨by decide, by decide, by decide, by decide, by decide,
    (settings_follow_merge_rule 0 [("a", .arr 1 [.num 1, .num 2, .num 3]), ("b", .num 4)] 2
      [("a", .arr 3 [.num 9]), ("b", .str "x"), ("c", .undefined), ("__proto__", .num 7)]
      (Mem.mk 6 [])
      (.obj 6 [("a", .arr 7 [.num 9, .num 2, .num 3]), ("b", .str "x")])
      (by decide) (by decide) (by decide) (by decide) (by decide)).1⟩

/-- C4 (counterexample): merging `{a: [9]}` over `{a: [1, 2, 3]}` gives
`{a: [9, 2, 3]}`: the value at `a` is not the array `[9]` of the override, and
the elements `2` and `3` of the default array survive.  Merging
`{b: undefined}` over `{b: 4}` keeps `b` equal to `4`, and merging
`{"__proto__": 7, a: 2}` over `{a: 1}` gives `{a: 2}`: the key `__proto__`,
present in the override, replaces nothing. -/
theorem array_override_is_merged :
    (mkSettings (.obj 0 [("a", .arr 1 [.num 1, .num 2, .num 3])])
        (.obj 2 [("a", .arr 3 [.num 9])]) (Mem.mk 4 [])).1
      = .obj 4 [("a", .arr 5 [.num 9, .num 2, .num 3])] ∧
    ((mkSettings (.obj 0 [("a", .arr 1 [.num 1, .num 2, .num 3])])
        (.obj 2 [("a", .arr 3 [.num 9])]) (Mem.mk 4 [])).1.get (.name "a")).get (.index 1)
      = .num 2 ∧
    (mkSettings (.obj 0 [("b", .num 4)]) (.obj 1 [("b", .undefined)]) (Mem.mk 2 [])).1
      = .obj 2 [("b", .num 4)] ∧
    (mkSettings (.obj 0 [("a", .num 1)]) (.obj 1 [("__proto__", .num 7), ("a", .num 2)])
        (Mem.mk 2 [])).1
      = .obj 2 [("a", .num 2)] := by
  decide

end JQueryPlugin
